import Mathlib

/-!
Shallow embedding of the `transaction` crate of the payment engine
(`src/transaction/src/lib.rs`, `src/transaction/src/num.rs`,
`src/transaction/src/process.rs`) and theorems settling the specification
claims about it.

Modelling conventions:
* `u64` machine integers are modelled as `Nat`; every arithmetic operation
  the Rust code performs on them is modelled explicitly, with `Option`
  capturing panics (`none` = the Rust program aborts: an arithmetic
  overflow/underflow or a failed `assert!`).
* `Amount = Decimal<4>` values are represented by their raw `u64` mantissa
  (the field `Decimal.0`), scaled by `10^4`.
* The two `HashMap`s owned by the `Processor` are modelled as association
  lists; the claims never depend on iteration order, and `rollout`'s
  `retain`, `len` and `keys().min()` are order independent.
* The methods `AccountStatus::hold`, `AccountStatus::release` and
  `AccountStatus::lock` are called by `Processor::dispute_transaction` but
  their definitions are not among the provided sources; they are modelled
  from the spec (§4.B), see their doc comments.
-/

/-- Largest `u64` value, which is also the raw mantissa of `Amount::MAX`
(`Decimal::<N>::MAX = Decimal(u64::MAX)`, src/transaction/src/num.rs). -/
def u64Max : Nat := 18446744073709551615

/-- `u64` addition as performed by `Decimal::add` / `+=` on mantissas
(src/transaction/src/num.rs, `impl Add`): the Rust program panics on
overflow ("attempt to add with overflow"), modelled by `none`. -/
def checkedAdd (a b : Nat) : Option Nat :=
  if a + b ≤ u64Max then some (a + b) else none

/-- `u64` subtraction as performed by `Decimal::sub` / `-=` on mantissas
(src/transaction/src/num.rs, `impl Sub`): the Rust program panics on
underflow ("attempt to subtract with overflow"), modelled by `none`. -/
def checkedSub (a b : Nat) : Option Nat :=
  if b ≤ a then some (a - b) else none

/-- `TransactionType` (src/transaction/src/lib.rs). -/
inductive TransactionType where
  | deposit
  | withdrawal
  | dispute
  | resolve
  | chargeback
deriving DecidableEq

/-- `Transaction` (src/transaction/src/lib.rs). `client` is a `u16` and
`tx` a `u32` in Rust; the claims never exercise their ranges, so plain
`Nat` is used. `amount` carries the raw mantissa of the optional
`Amount`. -/
structure Transaction where
  type : TransactionType
  client : Nat
  tx : Nat
  amount : Option Nat
deriving DecidableEq

/-- `AccountStatus` (src/transaction/src/lib.rs): `available` and `held`
are raw `Amount` mantissas. -/
structure AccountStatus where
  available : Nat
  held : Nat
  locked : Bool
deriving DecidableEq

/-- The `Default` account status: all zero, unlocked. -/
def AccountStatus.zero : AccountStatus := ⟨0, 0, false⟩

/-- Modelled from the spec: `AccountStatus::hold` is invoked by
`Processor::dispute_transaction` (src/transaction/src/process.rs line 149)
but its definition is not among the provided sources. Spec §4.B:
`hold(a): held ← held + a`; available is intentionally not decremented.
The addition is `u64` mantissa addition, which panics on overflow. -/
def AccountStatus.hold (s : AccountStatus) (a : Nat) : Option AccountStatus :=
  (checkedAdd s.held a).map fun h => { s with held := h }

/-- Modelled from the spec: `AccountStatus::release` is invoked by
`Processor::dispute_transaction` (line 150) but its definition is not
among the provided sources. Spec §4.B:
`release(a): available ← available + a; held ← held − a`, with `u64`
mantissa arithmetic that panics on overflow/underflow. -/
def AccountStatus.release (s : AccountStatus) (a : Nat) : Option AccountStatus :=
  (checkedAdd s.available a).bind fun av =>
    (checkedSub s.held a).map fun h => ⟨av, h, s.locked⟩

/-- Modelled from the spec: `AccountStatus::lock` is invoked by
`Processor::dispute_transaction` (line 151) but its definition is not
among the provided sources. Spec §4.B:
`lock(a): held ← held − a; locked ← true`, with `u64` mantissa
subtraction that panics on underflow. -/
def AccountStatus.lock (s : AccountStatus) (a : Nat) : Option AccountStatus :=
  (checkedSub s.held a).map fun h => ⟨s.available, h, true⟩

/-- `process::Error` (src/transaction/src/process.rs). -/
inductive ProcessError where
  | MissingAmount (tx : Nat)
  | TransactionAlreadyExists (tx : Nat)
  | TransactionNotFound (tx : Nat)
  | OperationNotSupported (tx : Nat) (prior : Option TransactionType) (incoming : TransactionType)
  | TooManyFunds (tx : Nat) (client : Nat)
  | NotEnoughFunds (tx : Nat) (client : Nat)
  | AccountLocked (tx : Nat) (client : Nat)
deriving DecidableEq

/-- `Result<α, process::Error>` as returned by the processor's methods. -/
inductive POut (α : Type) where
  | ok (a : α)
  | err (e : ProcessError)
deriving DecidableEq

/-- `TransactionStatus(TransactionType, Amount)`
(src/transaction/src/process.rs): the journal entry of a registered
transaction; `kind` is the tuple field `.0`, `amount` the field `.1`. -/
structure TransactionStatus where
  kind : TransactionType
  amount : Nat
deriving DecidableEq

/-- The journal `HashMap<TransactionID, TransactionStatus>`, modelled as an
association list. -/
abbrev Journal := List (Nat × TransactionStatus)

/-- Association-list lookup, modelling `HashMap::get` on a map with unique
keys. -/
def alistLookup {α : Type} : List (Nat × α) → Nat → Option α
  | [], _ => none
  | p :: ps, k => if p.1 = k then some p.2 else alistLookup ps k

/-- Association-list in-place value update, modelling mutation through
`HashMap::get_mut` / `Entry` on a map with unique keys. -/
def alistUpdate {α : Type} : List (Nat × α) → Nat → (α → α) → List (Nat × α)
  | [], _, _ => []
  | p :: ps, k, f => if p.1 = k then (p.1, f p.2) :: ps else p :: alistUpdate ps k f

/-- `HashMap::contains_key` on the journal. -/
def containsKey (j : Journal) (tx : Nat) : Bool :=
  (alistLookup j tx).isSome

/-- `matches!(status, TransactionType::Resolve | TransactionType::Chargeback)`
(src/transaction/src/process.rs line 172). -/
def isEnded : TransactionType → Bool
  | .resolve => true
  | .chargeback => true
  | _ => false

/-- The `retain` step of `Processor::rollout_transactions`: drop every
entry whose stored kind is `Resolve` or `Chargeback`. -/
def retainOpen (j : Journal) : Journal :=
  j.filter fun p => !isEnded p.2.kind

/-- `transactions.keys().min()` (src/transaction/src/process.rs line 176). -/
def minKey : Journal → Option Nat
  | [] => none
  | p :: ps =>
    some (match minKey ps with
          | none => p.1
          | some m => min p.1 m)

/-- One iteration of the eviction loop: remove the entry whose key is the
minimum transaction id (`transactions.remove(&tx)` at line 177). On an
empty journal this is the identity (the loop is never entered there for a
positive capacity). -/
def removeMinKey (j : Journal) : Journal :=
  match minKey j with
  | none => j
  | some m => j.eraseP fun p => p.1 == m

/-- The `while transactions.len() >= max_capacity` eviction loop of
`Processor::rollout_transactions`, written with explicit fuel. Each
iteration removes exactly one entry, so `j.length + 1` units of fuel are
enough for the fuel never to run out (`evictLoopFuel_congr` below proves
fuel irrelevance); the extra `j ≠ []` conjunct is equivalent to the Rust
guard whenever `0 < maxCap`, which the caller's `assert!` guarantees. -/
def evictLoopFuel : Nat → Journal → Nat → Journal
  | 0, j, _ => j
  | fuel + 1, j, maxCap =>
    if maxCap ≤ j.length ∧ j ≠ [] then evictLoopFuel fuel (removeMinKey j) maxCap else j

/-- The eviction loop entered with enough fuel. -/
def evictLoop (j : Journal) (maxCap : Nat) : Journal :=
  evictLoopFuel (j.length + 1) j maxCap

/-- `ROLLOUT_TRANSACTION_THRESHOLD` (src/transaction/src/process.rs). -/
def ROLLOUT_TRANSACTION_THRESHOLD : Nat := 1000

/-- `MAX_TRANSACTION_CAPACITY` (src/transaction/src/process.rs). -/
def MAX_TRANSACTION_CAPACITY : Nat := 1000000

/-- `Processor::rollout_transactions`: `assert!(max_capacity > 0)` (a
panic, `none`, when violated), then the conditional retain sweep, then the
eviction loop. -/
def rolloutTransactions (j : Journal) (threshold maxCap : Nat) : Option Journal :=
  if maxCap = 0 then none
  else some (evictLoop (if threshold ≤ j.length then retainOpen j else j) maxCap)

/-- `Processor::register_transaction` (src/transaction/src/process.rs lines
96-134). Returns the new journal and account status on success; errors
reproduce the source's order of checks (duplicate `tx` first, then the
amount's presence, then the funds guard); `none` models a panic. -/
def registerTransaction (j : Journal) (t : Transaction) (s : AccountStatus) :
    Option (POut (Journal × AccountStatus)) :=
  if containsKey j t.tx then some (.err (.TransactionAlreadyExists t.tx))
  else
    match t.type with
    | .deposit =>
      match t.amount with
      | none => some (.err (.MissingAmount t.tx))
      | some a =>
        match checkedSub u64Max s.available with
        | none => none
        | some room =>
          if room < a then some (.err (.TooManyFunds t.tx t.client))
          else
            match checkedAdd s.available a with
            | none => none
            | some av =>
              match rolloutTransactions j ROLLOUT_TRANSACTION_THRESHOLD MAX_TRANSACTION_CAPACITY with
              | none => none
              | some j1 => some (.ok (j1 ++ [(t.tx, ⟨.deposit, a⟩)], { s with available := av }))
    | .withdrawal =>
      match t.amount with
      | none => some (.err (.MissingAmount t.tx))
      | some a =>
        if s.available < a then some (.err (.NotEnoughFunds t.tx t.client))
        else
          match checkedSub s.available a with
          | none => none
          | some av =>
            match rolloutTransactions j ROLLOUT_TRANSACTION_THRESHOLD MAX_TRANSACTION_CAPACITY with
            | none => none
            | some j1 => some (.ok (j1 ++ [(t.tx, ⟨.withdrawal, a⟩)], { s with available := av }))
    | k => some (.err (.OperationNotSupported t.tx none k))

/-- `Processor::dispute_transaction` (src/transaction/src/process.rs lines
137-158). On success the stored kind is overwritten with the incoming kind
(`*t = transaction_type`); `none` models a panic inside
`hold`/`release`/`lock`. -/
def disputeTransaction (j : Journal) (tx : Nat) (ty : TransactionType) (s : AccountStatus) :
    Option (POut (Journal × AccountStatus)) :=
  match alistLookup j tx with
  | none => some (.err (.TransactionNotFound tx))
  | some ts =>
    let upd : Journal := alistUpdate j tx fun e => { e with kind := ty }
    match ty with
    | .dispute =>
      if ts.kind = .withdrawal then (s.hold ts.amount).map fun s1 => .ok (upd, s1)
      else some (.err (.OperationNotSupported tx (some ts.kind) ty))
    | .resolve =>
      if ts.kind = .dispute then (s.release ts.amount).map fun s1 => .ok (upd, s1)
      else some (.err (.OperationNotSupported tx (some ts.kind) ty))
    | .chargeback =>
      if ts.kind = .dispute then (s.lock ts.amount).map fun s1 => .ok (upd, s1)
      else some (.err (.OperationNotSupported tx (some ts.kind) ty))
    | _ => some (.err (.OperationNotSupported tx (some ts.kind) ty))

/-- `Processor` (src/transaction/src/process.rs): the account book and the
journal. -/
structure Processor where
  accounts : List (Nat × AccountStatus)
  transactions : Journal
deriving DecidableEq

/-- `Processor::default()`: both maps empty. -/
def initialProcessor : Processor := ⟨[], []⟩

/-- `self.accounts.entry(client).or_default()`: the account book after the
entry lookup, which inserts a zeroed unlocked account when the client was
not seen before — also on records that subsequently fail. -/
def orDefault (l : List (Nat × AccountStatus)) (c : Nat) : List (Nat × AccountStatus) :=
  if (alistLookup l c).isSome then l else l ++ [(c, AccountStatus.zero)]

/-- `Processor::process_transaction` (src/transaction/src/process.rs lines
76-93): or-default account creation, the lock pre-check, then dispatch to
`register_transaction` or `dispute_transaction`. The returned processor
carries the committed state; on an error the only change is the possible
account creation; `none` models a panic. -/
def dispatchTransaction (j : Journal) (t : Transaction) (s : AccountStatus) :
    Option (POut (Journal × AccountStatus)) :=
  match t.type with
  | .deposit => registerTransaction j t s
  | .withdrawal => registerTransaction j t s
  | ty => disputeTransaction j t.tx ty s

/-- `Processor::process_transaction` continued: the `match transaction.r#type`
dispatch at lines 85-90, factored out so that theorems can name it. -/
def processTransaction (p : Processor) (t : Transaction) :
    Option (POut Unit × Processor) :=
  let accounts := orDefault p.accounts t.client
  let s := (alistLookup accounts t.client).getD AccountStatus.zero
  if s.locked then some (.err (.AccountLocked t.tx t.client), ⟨accounts, p.transactions⟩)
  else
    match dispatchTransaction p.transactions t s with
    | none => none
    | some (.err e) => some (.err e, ⟨accounts, p.transactions⟩)
    | some (.ok (j1, s1)) =>
      some (.ok (), ⟨alistUpdate accounts t.client (fun _ => s1), j1⟩)

/-- `Processor::process`'s `try_fold` (src/transaction/src/process.rs lines
61-73): each transaction error is logged and swallowed, the fold continues
with the (possibly account-creating) state; a panic (`none`) aborts the
run. -/
def processList : Processor → List Transaction → Option Processor
  | p, [] => some p
  | p, t :: ts =>
    match processTransaction p t with
    | none => none
    | some (_, p1) => processList p1 ts

example :
    processList initialProcessor
      [⟨.deposit, 1, 1, some 50000⟩, ⟨.withdrawal, 1, 2, some 20000⟩] =
    some ⟨[(1, ⟨30000, 0, false⟩)], [(1, ⟨.deposit, 50000⟩), (2, ⟨.withdrawal, 20000⟩)]⟩ := by
  decide

/-! ### Basic lemmas about the association-list maps -/

theorem alistLookup_append_of_none {α : Type} {l : List (Nat × α)} {k : Nat}
    (h : alistLookup l k = none) (m : List (Nat × α)) :
    alistLookup (l ++ m) k = alistLookup m k := by
  induction l with
  | nil => rfl
  | cons p ps ih =>
    by_cases hk : p.1 = k
    · simp [alistLookup, hk] at h
    · simp only [alistLookup, hk, if_false, List.cons_append] at h ⊢
      exact ih h

theorem alistLookup_append_of_some {α : Type} {l : List (Nat × α)} {k : Nat} {v : α}
    (h : alistLookup l k = some v) (m : List (Nat × α)) :
    alistLookup (l ++ m) k = some v := by
  induction l with
  | nil => simp [alistLookup] at h
  | cons p ps ih =>
    by_cases hk : p.1 = k
    · simp only [alistLookup, hk, if_true, List.cons_append] at h ⊢
      exact h
    · simp only [alistLookup, hk, if_false, List.cons_append] at h ⊢
      exact ih h

theorem alistLookup_update {α : Type} (l : List (Nat × α)) (k : Nat) (f : α → α) (c : Nat) :
    alistLookup (alistUpdate l k f) c =
      if c = k then (alistLookup l k).map f else alistLookup l c := by
  induction l with
  | nil => simp [alistUpdate, alistLookup]
  | cons p ps ih =>
    simp only [alistUpdate]
    by_cases hc : c = k
    · subst hc
      by_cases hp : p.1 = c
      · simp [alistLookup, hp]
      · simp [alistLookup, hp, ih]
    · by_cases hp : p.1 = k
      · have hpc : ¬ p.1 = c := by rw [hp]; exact fun h => hc h.symm
        have hkc : ¬ k = c := fun h => hc h.symm
        simp [alistLookup, hp, hc, hpc, hkc]
      · simp [alistLookup, hp, hc, ih]

theorem alistUpdate_length {α : Type} (l : List (Nat × α)) (k : Nat) (f : α → α) :
    (alistUpdate l k f).length = l.length := by
  induction l with
  | nil => rfl
  | cons p ps ih =>
    simp only [alistUpdate]
    by_cases hp : p.1 = k <;> simp [hp, ih]

theorem orDefault_lookup_self (l : List (Nat × AccountStatus)) (c : Nat) :
    alistLookup (orDefault l c) c = some ((alistLookup l c).getD AccountStatus.zero) := by
  unfold orDefault
  cases h : alistLookup l c with
  | none =>
    simp only [h, Option.isSome_none, Bool.false_eq_true, if_false, Option.getD_none]
    rw [alistLookup_append_of_none h]
    simp [alistLookup]
  | some v => simp [h]

theorem orDefault_lookup_other {l : List (Nat × AccountStatus)} {c c' : Nat} (h : c' ≠ c) :
    alistLookup (orDefault l c) c' = alistLookup l c' := by
  unfold orDefault
  cases hl : alistLookup l c with
  | none =>
    simp only [hl, Option.isSome_none, Bool.false_eq_true, if_false]
    cases hl' : alistLookup l c' with
    | none =>
      rw [alistLookup_append_of_none hl']
      have hcc : ¬ c = c' := fun hh => h hh.symm
      simp [alistLookup, hcc]
    | some v => rw [alistLookup_append_of_some hl']
  | some v => simp [hl]

theorem orDefault_of_some {l : List (Nat × AccountStatus)} {c : Nat} {s : AccountStatus}
    (h : alistLookup l c = some s) : orDefault l c = l := by
  simp [orDefault, h]

/-! ### Helper lemmas about a single `process_transaction` step -/

theorem processTransaction_err_state {p : Processor} {t : Transaction} {e : ProcessError}
    {p1 : Processor} (h : processTransaction p t = some (.err e, p1)) :
    p1 = ⟨orDefault p.accounts t.client, p.transactions⟩ := by
  simp only [processTransaction] at h
  split at h
  · simp only [Option.some_inj, Prod.mk.injEq] at h
    exact h.2.symm
  · split at h
    · exact absurd h (by simp)
    · simp only [Option.some_inj, Prod.mk.injEq] at h
      exact h.2.symm
    · simp only [Option.some_inj, Prod.mk.injEq] at h
      exact absurd h.1 (by simp)

theorem processTransaction_ok_state {p : Processor} {t : Transaction} {u : Unit}
    {p1 : Processor} (h : processTransaction p t = some (.ok u, p1)) :
    ∃ j1 s1,
      dispatchTransaction p.transactions t
          ((alistLookup (orDefault p.accounts t.client) t.client).getD AccountStatus.zero) =
        some (.ok (j1, s1)) ∧
      p1 = ⟨alistUpdate (orDefault p.accounts t.client) t.client (fun _ => s1), j1⟩ := by
  simp only [processTransaction] at h
  split at h
  · simp only [Option.some_inj, Prod.mk.injEq] at h
    exact absurd h.1 (by simp)
  · split at h
    · exact absurd h (by simp)
    · simp only [Option.some_inj, Prod.mk.injEq] at h
      exact absurd h.1 (by simp)
    · rename_i j1 s1 heq
      simp only [Option.some_inj, Prod.mk.injEq] at h
      exact ⟨j1, s1, heq, h.2.symm⟩

theorem processTransaction_locked {p : Processor} {t : Transaction} {s : AccountStatus}
    (hs : alistLookup p.accounts t.client = some s) (hl : s.locked = true) :
    processTransaction p t = some (.err (.AccountLocked t.tx t.client), p) := by
  simp only [processTransaction, orDefault_of_some hs, hs, Option.getD_some, hl, if_true]

theorem processTransaction_accounts_other {p : Processor} {t : Transaction} {r : POut Unit}
    {p1 : Processor} {c : Nat} (h : processTransaction p t = some (r, p1))
    (hc : c ≠ t.client) :
    alistLookup p1.accounts c = alistLookup p.accounts c := by
  rcases r with u | e
  · obtain ⟨j1, s1, -, hp1⟩ := processTransaction_ok_state h
    rw [hp1]
    simp only [alistLookup_update, hc, if_false]
    exact orDefault_lookup_other hc
  · rw [processTransaction_err_state h]
    exact orDefault_lookup_other hc

/-- C7: locked is terminal. If a client's account is locked then (i) any
record addressed to that client fails with `AccountLocked` and leaves the
whole processor state unchanged, (ii) a single applied record — for any
client — never changes that account's `available`, `held` or `locked`
fields, and (iii) no subsequent sequence of records ever changes them. -/
theorem C7_locked_is_terminal :
    (∀ (p : Processor) (t : Transaction) (s : AccountStatus),
      alistLookup p.accounts t.client = some s → s.locked = true →
      processTransaction p t = some (.err (.AccountLocked t.tx t.client), p)) ∧
    (∀ (p : Processor) (t : Transaction) (r : POut Unit) (p1 : Processor) (c : Nat)
        (s : AccountStatus),
      alistLookup p.accounts c = some s → s.locked = true →
      processTransaction p t = some (r, p1) →
      alistLookup p1.accounts c = some s) ∧
    (∀ (p : Processor) (ts : List Transaction) (q : Processor) (c : Nat) (s : AccountStatus),
      alistLookup p.accounts c = some s → s.locked = true →
      processList p ts = some q →
      alistLookup q.accounts c = some s) := by
  have step : ∀ (p : Processor) (t : Transaction) (r : POut Unit) (p1 : Processor) (c : Nat)
      (s : AccountStatus), alistLookup p.accounts c = some s → s.locked = true →
      processTransaction p t = some (r, p1) → alistLookup p1.accounts c = some s := by
    intro p t r p1 c s hs hl h
    by_cases hc : c = t.client
    · subst hc
      rw [processTransaction_locked hs hl] at h
      simp only [Option.some_inj, Prod.mk.injEq] at h
      rw [← h.2, hs]
    · rw [processTransaction_accounts_other h hc, hs]
  refine ⟨fun p t s hs hl => processTransaction_locked hs hl, step, ?_⟩
  intro p ts
  induction ts generalizing p with
  | nil =>
    intro q c s hs hl h
    simp only [processList, Option.some_inj] at h
    rw [← h, hs]
  | cons t ts ih =>
    intro q c s hs hl h
    simp only [processList] at h
    cases hstep : processTransaction p t with
    | none => rw [hstep] at h; exact absurd h (by simp)
    | some rp =>
      rw [hstep] at h
      exact ih rp.2 q c s (step p t rp.1 rp.2 c s hs hl hstep) hl h

/-- C7 witness: a concrete locked account rejects a deposit and stays
untouched by a later record sequence. -/
theorem C7_locked_is_terminal_witness :
    processTransaction ⟨[(1, ⟨5, 0, true⟩)], []⟩ ⟨.deposit, 1, 9, some 3⟩ =
      some (.err (.AccountLocked 9 1), ⟨[(1, ⟨5, 0, true⟩)], []⟩) ∧
    alistLookup (⟨[(1, ⟨5, 0, true⟩)], []⟩ : Processor).accounts 1 = some ⟨5, 0, true⟩ ∧
    (⟨5, 0, true⟩ : AccountStatus).locked = true := by
  refine ⟨?_, by decide, by decide⟩
  exact C7_locked_is_terminal.1 ⟨[(1, ⟨5, 0, true⟩)], []⟩ ⟨.deposit, 1, 9, some 3⟩
    ⟨5, 0, true⟩ (by decide) (by decide)

/-- C6 (amended): per-record atomicity up to account creation. When `apply`
returns an error the journal is exactly as before and the account book is
exactly as before except that the addressed client's account may have been
created with the zeroed unlocked default (`entry(..).or_default()` runs
before any check); in particular every previously existing account is
unchanged. A `Deposit` or `Withdrawal` whose `tx` is already in the
journal fails with `TransactionAlreadyExists` before any balance
mutation. -/
theorem C6_atomicity_amended :
    (∀ (p : Processor) (t : Transaction) (e : ProcessError) (p1 : Processor),
      processTransaction p t = some (.err e, p1) →
      p1.transactions = p.transactions ∧
      p1.accounts = orDefault p.accounts t.client ∧
      ∀ c s0, alistLookup p.accounts c = some s0 → alistLookup p1.accounts c = some s0) ∧
    (∀ (p : Processor) (t : Transaction),
      (t.type = .deposit ∨ t.type = .withdrawal) →
      ((alistLookup (orDefault p.accounts t.client) t.client).getD AccountStatus.zero).locked
        = false →
      containsKey p.transactions t.tx = true →
      processTransaction p t =
        some (.err (.TransactionAlreadyExists t.tx),
              ⟨orDefault p.accounts t.client, p.transactions⟩)) := by
  constructor
  · intro p t e p1 h
    have hp1 := processTransaction_err_state h
    subst hp1
    refine ⟨rfl, rfl, ?_⟩
    intro c s0 hs0
    by_cases hc : c = t.client
    · subst hc
      rw [orDefault_lookup_self, hs0]
      rfl
    · rw [orDefault_lookup_other hc, hs0]
  · intro p t hty hnl hdup
    simp only [processTransaction, hnl, Bool.false_eq_true, if_false]
    rcases hty with h | h <;>
      simp only [dispatchTransaction, h, registerTransaction, hdup, if_true]

/-- C6 witness: a duplicate deposit on tx 9 fails with
`TransactionAlreadyExists` and commits nothing. -/
theorem C6_atomicity_amended_witness :
    ((⟨.deposit, 1, 9, some 3⟩ : Transaction).type = .deposit ∨
      (⟨.deposit, 1, 9, some 3⟩ : Transaction).type = .withdrawal) ∧
    containsKey [(9, ⟨.deposit, 5⟩)] 9 = true ∧
    processTransaction ⟨[(1, ⟨5, 0, false⟩)], [(9, ⟨.deposit, 5⟩)]⟩ ⟨.deposit, 1, 9, some 3⟩ =
      some (.err (.TransactionAlreadyExists 9),
            ⟨orDefault [(1, ⟨5, 0, false⟩)] 1, [(9, ⟨.deposit, 5⟩)]⟩) := by
  refine ⟨by decide, by decide, ?_⟩
  exact C6_atomicity_amended.2 ⟨[(1, ⟨5, 0, false⟩)], [(9, ⟨.deposit, 5⟩)]⟩
    ⟨.deposit, 1, 9, some 3⟩ (by decide) (by decide) (by decide)

/-- C6 counterexample: the claim "apply returns an error and the processor
state (AccountBook and Journal) is exactly as it was before the record
arrived" is false: a failing Dispute from a fresh client creates that
client's account, so the account book differs from the pre-record one. -/
theorem C6_counterexample :
    processTransaction initialProcessor ⟨.dispute, 7, 42, none⟩ =
      some (.err (.TransactionNotFound 42), ⟨[(7, AccountStatus.zero)], []⟩) ∧
    (⟨[(7, AccountStatus.zero)], []⟩ : Processor) ≠ initialProcessor := by
  decide

/-- C1: for a Dispute/Resolve/Chargeback record whose `tx` is present in
the journal with stored entry `⟨k, a⟩`, the processor implements exactly
the spec's transition table: Dispute succeeds only when `k = Withdrawal`
and then holds the stored amount (`held` increases by `a`, `available`
unchanged); Resolve succeeds only when `k = Dispute` and then releases it
(`available` increases by `a`, `held` decreases by `a`); Chargeback
succeeds only when `k = Dispute` and then deducts `a` from `held` and sets
`locked`; on success the stored kind becomes the incoming kind; every
other combination fails with `OperationNotSupported (tx, some k, incoming)`,
and an erroring record leaves every existing account (and the journal)
unchanged. The success equations carry the no-overflow/no-underflow side
conditions under which the mantissa arithmetic does not panic. -/
theorem C1_transition_table :
    (∀ (j : Journal) (tx : Nat) (s : AccountStatus) (k : TransactionType) (a : Nat),
      alistLookup j tx = some ⟨k, a⟩ →
      ((k = .withdrawal → s.held + a ≤ u64Max →
          disputeTransaction j tx .dispute s =
            some (.ok (alistUpdate j tx (fun e => { e with kind := .dispute }),
                       { s with held := s.held + a }))) ∧
       (k ≠ .withdrawal →
          disputeTransaction j tx .dispute s =
            some (.err (.OperationNotSupported tx (some k) .dispute))) ∧
       (k = .dispute → s.available + a ≤ u64Max → a ≤ s.held →
          disputeTransaction j tx .resolve s =
            some (.ok (alistUpdate j tx (fun e => { e with kind := .resolve }),
                       ⟨s.available + a, s.held - a, s.locked⟩))) ∧
       (k ≠ .dispute →
          disputeTransaction j tx .resolve s =
            some (.err (.OperationNotSupported tx (some k) .resolve))) ∧
       (k = .dispute → a ≤ s.held →
          disputeTransaction j tx .chargeback s =
            some (.ok (alistUpdate j tx (fun e => { e with kind := .chargeback }),
                       ⟨s.available, s.held - a, true⟩))) ∧
       (k ≠ .dispute →
          disputeTransaction j tx .chargeback s =
            some (.err (.OperationNotSupported tx (some k) .chargeback))))) ∧
    (∀ (p : Processor) (t : Transaction) (e : ProcessError) (p1 : Processor),
      processTransaction p t = some (.err e, p1) →
      p1.transactions = p.transactions ∧
      ∀ c s0, alistLookup p.accounts c = some s0 → alistLookup p1.accounts c = some s0) := by
  constructor
  · intro j tx s k a hlook
    refine ⟨?_, ?_, ?_, ?_, ?_, ?_⟩
    · intro hk hb
      subst hk
      simp [disputeTransaction, hlook, AccountStatus.hold, checkedAdd, hb]
    · intro hk
      simp [disputeTransaction, hlook, hk]
    · intro hk hb1 hb2
      subst hk
      simp [disputeTransaction, hlook, AccountStatus.release, checkedAdd, checkedSub, hb1, hb2]
    · intro hk
      simp [disputeTransaction, hlook, hk]
    · intro hk hb
      subst hk
      simp [disputeTransaction, hlook, AccountStatus.lock, checkedSub, hb]
    · intro hk
      simp [disputeTransaction, hlook, hk]
  · intro p t e p1 h
    have hp1 := processTransaction_err_state h
    subst hp1
    refine ⟨rfl, ?_⟩
    intro c s0 hs0
    by_cases hc : c = t.client
    · subst hc
      rw [orDefault_lookup_self, hs0]
      rfl
    · rw [orDefault_lookup_other hc, hs0]

/-- C1 witness: the transition table evaluated on a concrete journal and
account: a dispute of a stored withdrawal holds its amount, and a resolve
of the resulting dispute releases it. -/
theorem C1_transition_table_witness :
    disputeTransaction [(5, ⟨.withdrawal, 7⟩)] 5 .dispute ⟨10, 3, false⟩ =
      some (.ok (alistUpdate [(5, ⟨.withdrawal, 7⟩)] 5 (fun e => { e with kind := .dispute }),
                 { (⟨10, 3, false⟩ : AccountStatus) with held := 3 + 7 })) ∧
    disputeTransaction [(5, ⟨.dispute, 7⟩)] 5 .resolve ⟨10, 10, false⟩ =
      some (.ok (alistUpdate [(5, ⟨.dispute, 7⟩)] 5 (fun e => { e with kind := .resolve }),
                 ⟨10 + 7, 10 - 7, false⟩)) ∧
    disputeTransaction [(5, ⟨.deposit, 7⟩)] 5 .dispute ⟨10, 3, false⟩ =
      some (.err (.OperationNotSupported 5 (some .deposit) .dispute)) := by
  refine ⟨?_, ?_, ?_⟩
  · exact ((C1_transition_table.1 [(5, ⟨.withdrawal, 7⟩)] 5 ⟨10, 3, false⟩ .withdrawal 7
      (by decide)).1) rfl (by decide)
  · exact ((C1_transition_table.1 [(5, ⟨.dispute, 7⟩)] 5 ⟨10, 10, false⟩ .dispute 7
      (by decide)).2.2.1) rfl (by decide) (by decide)
  · exact ((C1_transition_table.1 [(5, ⟨.deposit, 7⟩)] 5 ⟨10, 3, false⟩ .deposit 7
      (by decide)).2.1) (by decide)

/-- C2 counterexample: from the reachable state after
`deposit(1,tx1,5)`, `withdrawal(1,tx2,2)` the pair `(available, held)` is
`(3.0, 0)`; applying `dispute(tx2); resolve(tx2)` yields `(5.0, 0)`, not
the pre-dispute `(3.0, 0)` — `resolve` adds the disputed amount to
`available`, so the round trip is not the identity. -/
theorem C2_counterexample :
    (processList initialProcessor
        [⟨.deposit, 1, 1, some 50000⟩, ⟨.withdrawal, 1, 2, some 20000⟩]).map
        (fun p => alistLookup p.accounts 1) = some (some ⟨30000, 0, false⟩) ∧
    (processList initialProcessor
        [⟨.deposit, 1, 1, some 50000⟩, ⟨.withdrawal, 1, 2, some 20000⟩,
         ⟨.dispute, 1, 2, none⟩, ⟨.resolve, 1, 2, none⟩]).map
        (fun p => alistLookup p.accounts 1) = some (some ⟨50000, 0, false⟩) ∧
    (⟨50000, 0, false⟩ : AccountStatus) ≠ ⟨30000, 0, false⟩ := by
  decide

/-- C2 (amended): for any state whose journal holds `w ↦ ⟨Withdrawal, a⟩`
(a valid withdrawal not previously disputed) and whose account is
unlocked, applying `dispute(w); resolve(w)` succeeds, returns `held`
exactly to its pre-dispute value and increases `available` by exactly `a`
(the stored kind ending at `Resolve`); the side conditions are the
no-panic bounds of the mantissa arithmetic. -/
theorem C2_dispute_resolve_amended :
    ∀ (p : Processor) (c w a : Nat) (s : AccountStatus),
      alistLookup p.accounts c = some s → s.locked = false →
      alistLookup p.transactions w = some ⟨.withdrawal, a⟩ →
      s.held + a ≤ u64Max → s.available + a ≤ u64Max →
      ∃ q, processList p [⟨.dispute, c, w, none⟩, ⟨.resolve, c, w, none⟩] = some q ∧
        alistLookup q.accounts c = some ⟨s.available + a, s.held, false⟩ ∧
        alistLookup q.transactions w = some ⟨.resolve, a⟩ := by
  intro p c w a s hs hlocked hlook hb1 hb2
  have hsplit : s = ⟨s.available, s.held, false⟩ := by
    cases s
    simp_all
  rw [hsplit] at hs
  clear hsplit hlocked
  have h1 : processTransaction p ⟨.dispute, c, w, none⟩ =
      some (.ok (), ⟨alistUpdate p.accounts c (fun _ => ⟨s.available, s.held + a, false⟩),
                     alistUpdate p.transactions w (fun e => { e with kind := .dispute })⟩) := by
    simp only [processTransaction, orDefault_of_some hs, hs, Option.getD_some,
      Bool.false_eq_true, if_false, dispatchTransaction]
    simp [disputeTransaction, hlook, AccountStatus.hold, checkedAdd, hb1]
  have e1 : alistLookup (alistUpdate p.accounts c (fun _ => ⟨s.available, s.held + a, false⟩)) c =
      some ⟨s.available, s.held + a, false⟩ := by
    rw [alistLookup_update]
    simp [hs]
  have e2 : alistLookup (alistUpdate p.transactions w (fun e => { e with kind := .dispute })) w =
      some ⟨.dispute, a⟩ := by
    rw [alistLookup_update]
    simp [hlook]
  have h2 : processTransaction
      ⟨alistUpdate p.accounts c (fun _ => ⟨s.available, s.held + a, false⟩),
       alistUpdate p.transactions w (fun e => { e with kind := .dispute })⟩
      ⟨.resolve, c, w, none⟩ =
      some (.ok (),
        ⟨alistUpdate (alistUpdate p.accounts c (fun _ => ⟨s.available, s.held + a, false⟩)) c
           (fun _ => ⟨s.available + a, s.held, false⟩),
         alistUpdate (alistUpdate p.transactions w (fun e => { e with kind := .dispute })) w
           (fun e => { e with kind := .resolve })⟩) := by
    simp only [processTransaction, orDefault_of_some e1, e1, Option.getD_some,
      Bool.false_eq_true, if_false, dispatchTransaction]
    simp [disputeTransaction, e2, AccountStatus.release, checkedAdd, checkedSub, hb2,
      Nat.le_add_left]
  refine ⟨⟨alistUpdate (alistUpdate p.accounts c (fun _ => ⟨s.available, s.held + a, false⟩)) c
            (fun _ => ⟨s.available + a, s.held, false⟩),
          alistUpdate (alistUpdate p.transactions w (fun e => { e with kind := .dispute })) w
            (fun e => { e with kind := .resolve })⟩, ?_, ?_, ?_⟩
  · simp only [processList, h1, h2]
  · rw [alistLookup_update]
    simp [e1]
  · rw [alistLookup_update]
    simp [e2]

/-- C2 witness: the amended round trip evaluated on a concrete reachable
state: from `(available, held) = (3.0, 0)` with `tx 2 ↦ ⟨Withdrawal, 2.0⟩`,
`dispute(2); resolve(2)` ends at `(5.0, 0)` with the stored kind
`Resolve`. -/
theorem C2_dispute_resolve_amended_witness :
    ∃ q, processList ⟨[(1, ⟨30000, 0, false⟩)], [(1, ⟨.deposit, 50000⟩), (2, ⟨.withdrawal, 20000⟩)]⟩
        [⟨.dispute, 1, 2, none⟩, ⟨.resolve, 1, 2, none⟩] = some q ∧
      alistLookup q.accounts 1 = some ⟨30000 + 20000, 0, false⟩ ∧
      alistLookup q.transactions 2 = some ⟨.resolve, 20000⟩ := by
  exact C2_dispute_resolve_amended
    ⟨[(1, ⟨30000, 0, false⟩)], [(1, ⟨.deposit, 50000⟩), (2, ⟨.withdrawal, 20000⟩)]⟩
    1 2 20000 ⟨30000, 0, false⟩ (by decide) (by decide) (by decide) (by decide) (by decide)

/-- C3: evaluating the processor on the reference-suite input. The claim
(and the in-repo test `test_process_ok`) expects the final sheet
`available = 1.1, held = 0, total = 1.1, locked = true`, but the code
rejects all four referencing records (`dispute`/`resolve` of tx 2 and
`dispute`/`chargeback` of tx 3 refer to stored `Deposit` entries, which
the transition table does not admit into dispute), so the actual final
account is `available = 2.1 (mantissa 21000), held = 0, locked = false` —
the code contradicts its own integration test. -/
theorem C3_reference_sample_eval :
    (processList initialProcessor
        [⟨.deposit, 1, 1, some 51000⟩, ⟨.deposit, 1, 2, some 2000⟩,
         ⟨.deposit, 1, 3, some 10000⟩, ⟨.withdrawal, 1, 4, some 42000⟩,
         ⟨.dispute, 1, 2, none⟩, ⟨.resolve, 1, 2, none⟩,
         ⟨.dispute, 1, 3, none⟩, ⟨.chargeback, 1, 3, none⟩]).map
      (fun p => alistLookup p.accounts 1) = some (some ⟨21000, 0, false⟩) ∧
    (⟨21000, 0, false⟩ : AccountStatus) ≠ ⟨11000, 0, true⟩ := by
  decide

/-- C4 counterexample: the invariant `total = available + held ≤ Amount::MAX`
fails on a reachable state. Depositing `Amount::MAX`, withdrawing it,
disputing the withdrawal (which holds `MAX` without debiting `available`)
and depositing `Amount::MAX` again (the deposit guard only checks
`available`) reaches `available = held = u64::MAX`, so the addition
`available + held` performed when deriving `total` exceeds the 64-bit
maximum. -/
theorem C4_counterexample :
    (processList initialProcessor
        [⟨.deposit, 1, 1, some u64Max⟩, ⟨.withdrawal, 1, 2, some u64Max⟩,
         ⟨.dispute, 1, 2, none⟩, ⟨.deposit, 1, 3, some u64Max⟩]).map
      (fun p => alistLookup p.accounts 1) = some (some ⟨u64Max, u64Max, false⟩) ∧
    ¬ (u64Max + u64Max ≤ u64Max) := by
  decide

/-- C5: a reachable state on which a subtraction on `held` underflows. A
dispute issued by client 2 against client 1's withdrawal succeeds (no
client check) and holds the amount on client 2's account; the subsequent
resolve issued by client 1 then releases on client 1's account, whose
`held` is 0, and the subtraction `held − a` underflows: the step is a
panic (`none`), not a domain error. -/
theorem C5_held_underflow :
    (processList initialProcessor
        [⟨.deposit, 1, 1, some 50000⟩, ⟨.withdrawal, 1, 2, some 50000⟩,
         ⟨.dispute, 2, 2, none⟩]).map
      (fun p => (alistLookup p.accounts 1, processTransaction p ⟨.resolve, 1, 2, none⟩)) =
      some (some ⟨0, 0, false⟩, none) := by
  decide

/-- C10: referencing records never check that the record's client matches
the client who registered the transaction. Concretely: client 1 deposits
(tx 1) and withdraws 3.0 (tx 2); a Dispute carrying client 2 but
referencing tx 2 succeeds, creates and mutates client 2's account with the
amount stored for client 1's withdrawal (held = 3.0), and leaves client
1's account unchanged. -/
theorem C10_no_client_check :
    (processList initialProcessor
        [⟨.deposit, 1, 1, some 50000⟩, ⟨.withdrawal, 1, 2, some 30000⟩]).bind
      (fun p => processTransaction p ⟨.dispute, 2, 2, none⟩) =
      some (.ok (), ⟨[(1, ⟨20000, 0, false⟩), (2, ⟨0, 30000, false⟩)],
                     [(1, ⟨.deposit, 50000⟩), (2, ⟨.dispute, 30000⟩)]⟩) ∧
    (processList initialProcessor
        [⟨.deposit, 1, 1, some 50000⟩, ⟨.withdrawal, 1, 2, some 30000⟩]).map
      (fun p => alistLookup p.accounts 1) = some (some ⟨20000, 0, false⟩) := by
  decide

/-! ### The balance-bound invariant (C4 amended) -/

theorem checkedAdd_some {a b c : Nat} (h : checkedAdd a b = some c) :
    c = a + b ∧ a + b ≤ u64Max := by
  unfold checkedAdd at h
  split at h
  · exact ⟨(Option.some_inj.mp h).symm, by assumption⟩
  · exact absurd h (by simp)

theorem checkedSub_some {a b c : Nat} (h : checkedSub a b = some c) :
    c = a - b ∧ b ≤ a := by
  unfold checkedSub at h
  split at h
  · exact ⟨(Option.some_inj.mp h).symm, by assumption⟩
  · exact absurd h (by simp)

/-- Every account stored in the book has `available` and `held` within the
`u64` range (they are `u64` fields in Rust; in the embedding this says no
unchecked growth path exists). -/
def boundedAccounts (l : List (Nat × AccountStatus)) : Prop :=
  ∀ c s, alistLookup l c = some s → s.available ≤ u64Max ∧ s.held ≤ u64Max

theorem boundedAccounts_orDefault {l : List (Nat × AccountStatus)} (hb : boundedAccounts l)
    (c : Nat) : boundedAccounts (orDefault l c) := by
  intro c' s' h'
  by_cases hc : c' = c
  · subst hc
    rw [orDefault_lookup_self] at h'
    cases hl : alistLookup l c' with
    | none => rw [hl] at h'; simp at h'; simp [← h', AccountStatus.zero]
    | some v =>
      rw [hl] at h'
      simp at h'
      exact h' ▸ hb c' v hl
  · rw [orDefault_lookup_other hc] at h'
    exact hb c' s' h'

theorem registerTransaction_ok_bounds {j : Journal} {t : Transaction} {s : AccountStatus}
    {j1 : Journal} {s1 : AccountStatus}
    (h : registerTransaction j t s = some (.ok (j1, s1)))
    (ha : s.available ≤ u64Max) (hh : s.held ≤ u64Max) :
    s1.available ≤ u64Max ∧ s1.held ≤ u64Max := by
  unfold registerTransaction at h
  split at h
  · exact absurd h (by simp)
  · split at h
    · -- deposit
      split at h
      · exact absurd h (by simp)
      · split at h
        · exact absurd h (by simp)
        · split at h
          · exact absurd h (by simp)
          · split at h
            · exact absurd h (by simp)
            · rename_i av hav
              split at h
              · exact absurd h (by simp)
              · simp only [Option.some_inj, POut.ok.injEq, Prod.mk.injEq] at h
                rw [← h.2]
                refine ⟨?_, hh⟩
                rw [(checkedAdd_some hav).1]
                exact (checkedAdd_some hav).2
    · -- withdrawal
      split at h
      · exact absurd h (by simp)
      · split at h
        · exact absurd h (by simp)
        · split at h
          · exact absurd h (by simp)
          · rename_i av hav
            split at h
            · exact absurd h (by simp)
            · simp only [Option.some_inj, POut.ok.injEq, Prod.mk.injEq] at h
              rw [← h.2]
              refine ⟨?_, hh⟩
              rw [(checkedSub_some hav).1]
              exact le_trans (Nat.sub_le _ _) ha
    · exact absurd h (by simp)

theorem disputeTransaction_ok_bounds {j : Journal} {tx : Nat} {ty : TransactionType}
    {s : AccountStatus} {j1 : Journal} {s1 : AccountStatus}
    (h : disputeTransaction j tx ty s = some (.ok (j1, s1)))
    (ha : s.available ≤ u64Max) (hh : s.held ≤ u64Max) :
    s1.available ≤ u64Max ∧ s1.held ≤ u64Max := by
  unfold disputeTransaction at h
  split at h
  · exact absurd h (by simp)
  · rename_i ts hts
    split at h
    · -- dispute
      split at h
      · unfold AccountStatus.hold at h
        rw [Option.map_eq_some'] at h
        obtain ⟨s2, hs2, hok⟩ := h
        simp only [POut.ok.injEq, Prod.mk.injEq] at hok
        obtain ⟨hv, hcadd, heq⟩ := Option.map_eq_some'.mp hs2
        rw [← hok.2, ← heq]
        refine ⟨ha, ?_⟩
        rw [(checkedAdd_some hcadd).1]
        exact (checkedAdd_some hcadd).2
      · exact absurd h (by simp)
    · -- resolve
      split at h
      · unfold AccountStatus.release at h
        rw [Option.map_eq_some'] at h
        obtain ⟨s2, hs2, hok⟩ := h
        simp only [POut.ok.injEq, Prod.mk.injEq] at hok
        rw [Option.bind_eq_some] at hs2
        obtain ⟨av, hav, hs2⟩ := hs2
        obtain ⟨hv, hcsub, heq⟩ := Option.map_eq_some'.mp hs2
        rw [← hok.2, ← heq]
        constructor
        · rw [(checkedAdd_some hav).1]
          exact (checkedAdd_some hav).2
        · rw [(checkedSub_some hcsub).1]
          exact le_trans (Nat.sub_le _ _) hh
      · exact absurd h (by simp)
    · -- chargeback
      split at h
      · unfold AccountStatus.lock at h
        rw [Option.map_eq_some'] at h
        obtain ⟨s2, hs2, hok⟩ := h
        simp only [POut.ok.injEq, Prod.mk.injEq] at hok
        obtain ⟨hv, hcsub, heq⟩ := Option.map_eq_some'.mp hs2
        rw [← hok.2, ← heq]
        refine ⟨ha, ?_⟩
        rw [(checkedSub_some hcsub).1]
        exact le_trans (Nat.sub_le _ _) hh
      · exact absurd h (by simp)
    · exact absurd h (by simp)

theorem processTransaction_bounds {p : Processor} {t : Transaction} {r : POut Unit}
    {p1 : Processor} (hb : boundedAccounts p.accounts)
    (h : processTransaction p t = some (r, p1)) : boundedAccounts p1.accounts := by
  rcases r with u | e
  · obtain ⟨j1, s1, hd, hp1⟩ := processTransaction_ok_state h
    have hbo := boundedAccounts_orDefault hb t.client
    have hs : ((alistLookup (orDefault p.accounts t.client) t.client).getD
          AccountStatus.zero).available ≤ u64Max ∧
        ((alistLookup (orDefault p.accounts t.client) t.client).getD
          AccountStatus.zero).held ≤ u64Max := by
      rw [orDefault_lookup_self]
      cases hl : alistLookup p.accounts t.client with
      | none => simp [AccountStatus.zero]
      | some v => simpa using hb t.client v hl
    have hs1 : s1.available ≤ u64Max ∧ s1.held ≤ u64Max := by
      unfold dispatchTransaction at hd
      split at hd
      · exact registerTransaction_ok_bounds hd hs.1 hs.2
      · exact registerTransaction_ok_bounds hd hs.1 hs.2
      · exact disputeTransaction_ok_bounds hd hs.1 hs.2
    subst hp1
    intro c s0 h0
    rw [alistLookup_update] at h0
    by_cases hc : c = t.client
    · rw [if_pos hc] at h0
      obtain ⟨v, -, hv⟩ := Option.map_eq_some'.mp h0
      rw [← hv]
      exact hs1
    · rw [if_neg hc] at h0
      exact hbo c s0 h0
  · rw [processTransaction_err_state h]
    exact boundedAccounts_orDefault hb t.client

/-- C4 (amended): after every applied record each account's `available`
and `held` separately stay within `Amount::MAX` (every store to them goes
through a guard or a checked operation), so `total = available + held` is
at most `2 · Amount::MAX`. The claim's stronger bound
`available + held ≤ Amount::MAX` is false (see the counterexample): the
deposit guard only bounds `available`, so the addition performed when
deriving `total` can overflow the 64-bit representation. -/
theorem C4_total_bound_amended :
    ∀ (ts : List Transaction) (p : Processor) (c : Nat) (s : AccountStatus),
      processList initialProcessor ts = some p →
      alistLookup p.accounts c = some s →
      s.available ≤ u64Max ∧ s.held ≤ u64Max ∧ s.available + s.held ≤ 2 * u64Max := by
  have main : ∀ (ts : List Transaction) (p q : Processor), boundedAccounts p.accounts →
      processList p ts = some q → boundedAccounts q.accounts := by
    intro ts
    induction ts with
    | nil =>
      intro p q hb h
      simp only [processList, Option.some_inj] at h
      exact h ▸ hb
    | cons t ts ih =>
      intro p q hb h
      simp only [processList] at h
      cases hstep : processTransaction p t with
      | none => rw [hstep] at h; exact absurd h (by simp)
      | some rp =>
        rw [hstep] at h
        exact ih rp.2 q (processTransaction_bounds hb hstep) h
  intro ts p c s hrun hs
  have hb0 : boundedAccounts initialProcessor.accounts := by
    intro c' s' h'
    simp [initialProcessor, alistLookup] at h'
  have := main ts initialProcessor p hb0 hrun c s hs
  exact ⟨this.1, this.2, by omega⟩

/-- C4 witness: the amended bound evaluated on a concrete one-deposit run. -/
theorem C4_total_bound_amended_witness :
    processList initialProcessor [⟨.deposit, 1, 1, some 51000⟩] =
      some ⟨[(1, ⟨51000, 0, false⟩)], [(1, ⟨.deposit, 51000⟩)]⟩ ∧
    (51000 ≤ u64Max ∧ 0 ≤ u64Max ∧ 51000 + 0 ≤ 2 * u64Max) := by
  refine ⟨by decide, ?_⟩
  exact C4_total_bound_amended [⟨.deposit, 1, 1, some 51000⟩]
    ⟨[(1, ⟨51000, 0, false⟩)], [(1, ⟨.deposit, 51000⟩)]⟩ 1 ⟨51000, 0, false⟩
    (by decide) (by decide)

/-! ### Journal rollout lemmas (C8) -/

theorem minKey_eq_none {j : Journal} (h : minKey j = none) : j = [] := by
  cases j with
  | nil => rfl
  | cons p ps => simp [minKey] at h

theorem minKey_mem {j : Journal} {m : Nat} (h : minKey j = some m) :
    ∃ q ∈ j, q.1 = m := by
  induction j generalizing m with
  | nil => simp [minKey] at h
  | cons p ps ih =>
    cases hps : minKey ps with
    | none =>
      simp only [minKey, hps, Option.some_inj] at h
      exact ⟨p, List.mem_cons_self p ps, h⟩
    | some m' =>
      simp only [minKey, hps, Option.some_inj] at h
      rcases min_choice p.1 m' with hm | hm
      · rw [hm] at h
        exact ⟨p, List.mem_cons_self p ps, h⟩
      · rw [hm] at h
        obtain ⟨q, hq, hq1⟩ := ih (h ▸ hps)
        exact ⟨q, List.mem_cons_of_mem p hq, hq1⟩

theorem minKey_le {j : Journal} {m : Nat} (h : minKey j = some m) :
    ∀ q ∈ j, m ≤ q.1 := by
  induction j generalizing m with
  | nil => simp [minKey] at h
  | cons p ps ih =>
    intro q hq
    rcases List.mem_cons.mp hq with hq | hq
    · subst hq
      cases hps : minKey ps with
      | none =>
        simp only [minKey, hps, Option.some_inj] at h
        exact h ▸ le_refl _
      | some m' =>
        simp only [minKey, hps, Option.some_inj] at h
        exact h ▸ min_le_left _ _
    · cases hps : minKey ps with
      | none => rw [minKey_eq_none hps] at hq; simp at hq
      | some m' =>
        simp only [minKey, hps, Option.some_inj] at h
        exact le_trans (h ▸ min_le_right p.1 m') (ih hps q hq)

theorem removeMinKey_length {j : Journal} (h : j ≠ []) :
    (removeMinKey j).length + 1 = j.length := by
  cases hm : minKey j with
  | none => exact absurd (minKey_eq_none hm) h
  | some m =>
    obtain ⟨q, hq, hq1⟩ := minKey_mem hm
    unfold removeMinKey
    rw [hm]
    exact List.length_eraseP_add_one hq (by simp [hq1])

theorem removeMinKey_subset {j : Journal} {q : Nat × TransactionStatus}
    (h : q ∈ removeMinKey j) : q ∈ j := by
  unfold removeMinKey at h
  cases hm : minKey j with
  | none => rw [hm] at h; exact h
  | some m => rw [hm] at h; exact (List.eraseP_sublist _).subset h

theorem evictLoopFuel_length {mc : Nat} (h0 : 0 < mc) :
    ∀ (fuel : Nat) (j : Journal), j.length < fuel →
      (evictLoopFuel fuel j mc).length < mc := by
  intro fuel
  induction fuel with
  | zero => intro j h; omega
  | succ n ih =>
    intro j h
    unfold evictLoopFuel
    split
    · rename_i hc
      refine ih (removeMinKey j) ?_
      have := removeMinKey_length hc.2
      omega
    · rename_i hc
      rcases not_and_or.mp hc with hc | hc
      · omega
      · rw [not_not.mp hc]
        simpa using h0

theorem evictLoopFuel_subset {mc : Nat} :
    ∀ (fuel : Nat) (j : Journal) (q : Nat × TransactionStatus),
      q ∈ evictLoopFuel fuel j mc → q ∈ j := by
  intro fuel
  induction fuel with
  | zero => intro j q h; exact h
  | succ n ih =>
    intro j q h
    unfold evictLoopFuel at h
    split at h
    · exact removeMinKey_subset (ih (removeMinKey j) q h)
    · exact h

theorem rolloutTransactions_length {j : Journal} {th mc : Nat} {j1 : Journal}
    (h : rolloutTransactions j th mc = some j1) : j1.length < mc := by
  unfold rolloutTransactions at h
  split at h
  · exact absurd h (by simp)
  · rename_i hmc
    rw [Option.some_inj] at h
    rw [← h]
    exact evictLoopFuel_length (Nat.pos_of_ne_zero hmc) _ _ (Nat.lt_succ_self _)

theorem registerTransaction_ok_journal {j : Journal} {t : Transaction} {s : AccountStatus}
    {j1 : Journal} {s1 : AccountStatus}
    (h : registerTransaction j t s = some (.ok (j1, s1))) :
    ∃ j2 k a, rolloutTransactions j ROLLOUT_TRANSACTION_THRESHOLD MAX_TRANSACTION_CAPACITY
        = some j2 ∧ j1 = j2 ++ [(t.tx, ⟨k, a⟩)] := by
  unfold registerTransaction at h
  split at h
  · exact absurd h (by simp)
  · split at h
    · split at h
      · exact absurd h (by simp)
      · split at h
        · exact absurd h (by simp)
        · split at h
          · exact absurd h (by simp)
          · split at h
            · exact absurd h (by simp)
            · split at h
              · exact absurd h (by simp)
              · rename_i j2 hj2
                simp only [Option.some_inj, POut.ok.injEq, Prod.mk.injEq] at h
                exact ⟨j2, .deposit, _, hj2, h.1.symm⟩
    · split at h
      · exact absurd h (by simp)
      · split at h
        · exact absurd h (by simp)
        · split at h
          · exact absurd h (by simp)
          · split at h
            · exact absurd h (by simp)
            · rename_i j2 hj2
              simp only [Option.some_inj, POut.ok.injEq, Prod.mk.injEq] at h
              exact ⟨j2, .withdrawal, _, hj2, h.1.symm⟩
    · exact absurd h (by simp)

theorem disputeTransaction_ok_journal {j : Journal} {tx : Nat} {ty : TransactionType}
    {s : AccountStatus} {j1 : Journal} {s1 : AccountStatus}
    (h : disputeTransaction j tx ty s = some (.ok (j1, s1))) :
    j1 = alistUpdate j tx (fun e => { e with kind := ty }) := by
  unfold disputeTransaction at h
  split at h
  · exact absurd h (by simp)
  · split at h <;>
      first
      | (split at h
         · rw [Option.map_eq_some'] at h
           obtain ⟨s2, -, hok⟩ := h
           simp only [POut.ok.injEq, Prod.mk.injEq] at hok
           exact hok.1.symm
         · exact absurd h (by simp))
      | exact absurd h (by simp)

theorem processTransaction_journal_le {p : Processor} {t : Transaction} {r : POut Unit}
    {p1 : Processor} (hb : p.transactions.length ≤ MAX_TRANSACTION_CAPACITY)
    (h : processTransaction p t = some (r, p1)) :
    p1.transactions.length ≤ MAX_TRANSACTION_CAPACITY := by
  rcases r with u | e
  · obtain ⟨j1, s1, hd, hp1⟩ := processTransaction_ok_state h
    subst hp1
    unfold dispatchTransaction at hd
    split at hd
    · obtain ⟨j2, k, a, hj2, hj1⟩ := registerTransaction_ok_journal hd
      have := rolloutTransactions_length hj2
      simp only [hj1, List.length_append, List.length_singleton]
      omega
    · obtain ⟨j2, k, a, hj2, hj1⟩ := registerTransaction_ok_journal hd
      have := rolloutTransactions_length hj2
      simp only [hj1, List.length_append, List.length_singleton]
      omega
    · rw [disputeTransaction_ok_journal hd]
      simpa [alistUpdate_length] using hb
  · rw [processTransaction_err_state h]
    exact hb

theorem eraseP_key_ne {m : Nat} :
    ∀ (j : Journal), (j.map Prod.fst).Nodup →
      ∀ q ∈ j.eraseP (fun p => p.1 == m), (∃ x ∈ j, x.1 = m) → q.1 ≠ m := by
  intro j
  induction j with
  | nil => intro _ q hq; simp at hq
  | cons p ps ih =>
    intro hnd q hq hex
    rw [List.map_cons, List.nodup_cons] at hnd
    by_cases hp : p.1 = m
    · rw [List.eraseP_cons_of_pos (by simp [hp])] at hq
      intro hqm
      refine hnd.1 ?_
      rw [hp, ← hqm]
      exact List.mem_map_of_mem Prod.fst hq
    · rw [List.eraseP_cons_of_neg (by simp [hp])] at hq
      rcases List.mem_cons.mp hq with hq | hq
      · rw [hq]; exact hp
      · obtain ⟨x, hx, hxm⟩ := hex
        rcases List.mem_cons.mp hx with hx | hx
        · exact absurd (hx ▸ hxm) hp
        · exact ih hnd.2 q hq ⟨x, hx, hxm⟩

/-- C8: the journal is bounded. (i) For every threshold and every
`max_capacity > 0`, `rollout` returns (no panic) and leaves strictly fewer
than `max_capacity` entries, so an insertion slot is free; (ii)
consequently after every applied record the journal holds at most
`MAX_TRANSACTION_CAPACITY = 1,000,000` entries; (iii) when the pre-rollout
size is at least the rollout threshold, no entry whose stored kind is
`Resolve` or `Chargeback` survives; (iv) while the size is at least
`max_capacity` the eviction loop drops exactly the entry with the
numerically smallest transaction id. -/
theorem C8_journal_bounded :
    (∀ (j : Journal) (th mc : Nat), 0 < mc →
      ∃ j1, rolloutTransactions j th mc = some j1 ∧ j1.length < mc) ∧
    (∀ (ts : List Transaction) (q : Processor),
      processList initialProcessor ts = some q →
      q.transactions.length ≤ MAX_TRANSACTION_CAPACITY) ∧
    (∀ (j : Journal) (th mc : Nat) (j1 : Journal), th ≤ j.length →
      rolloutTransactions j th mc = some j1 →
      ∀ q ∈ j1, q.2.kind ≠ .resolve ∧ q.2.kind ≠ .chargeback) ∧
    (∀ (j : Journal) (mc : Nat), 0 < mc → mc ≤ j.length →
      evictLoop j mc = evictLoop (removeMinKey j) mc ∧
      ∃ m, minKey j = some m ∧ (∀ q ∈ j, m ≤ q.1) ∧
        (removeMinKey j).length + 1 = j.length ∧
        ((j.map Prod.fst).Nodup → ∀ q ∈ removeMinKey j, m < q.1)) := by
  refine ⟨?_, ?_, ?_, ?_⟩
  · intro j th mc h0
    have hne : mc ≠ 0 := by omega
    refine ⟨evictLoop (if th ≤ j.length then retainOpen j else j) mc, ?_, ?_⟩
    · simp [rolloutTransactions, hne]
    · exact @rolloutTransactions_length j th mc _ (by simp [rolloutTransactions, hne])
  · intro ts
    have main : ∀ (ts : List Transaction) (p q : Processor),
        p.transactions.length ≤ MAX_TRANSACTION_CAPACITY →
        processList p ts = some q → q.transactions.length ≤ MAX_TRANSACTION_CAPACITY := by
      intro ts
      induction ts with
      | nil =>
        intro p q hb h
        simp only [processList, Option.some_inj] at h
        exact h ▸ hb
      | cons t ts ih =>
        intro p q hb h
        simp only [processList] at h
        cases hstep : processTransaction p t with
        | none => rw [hstep] at h; exact absurd h (by simp)
        | some rp =>
          rw [hstep] at h
          exact ih rp.2 q (processTransaction_journal_le hb hstep) h
    intro q h
    exact main ts initialProcessor q (by simp [initialProcessor, MAX_TRANSACTION_CAPACITY]) h
  · intro j th mc j1 hth h
    unfold rolloutTransactions at h
    split at h
    · exact absurd h (by simp)
    · rw [Option.some_inj] at h
      intro q hq
      have hq2 : q ∈ retainOpen j := evictLoopFuel_subset _ _ q (h ▸ hq)
      have hf := (List.mem_filter.mp hq2).2
      cases hk : q.2.kind <;> simp [isEnded, hk] at hf ⊢
  · intro j mc h0 hlen
    have hne : j ≠ [] := by
      intro h
      rw [h] at hlen
      simp at hlen
      omega
    constructor
    · show evictLoopFuel (j.length + 1) j mc =
        evictLoopFuel ((removeMinKey j).length + 1) (removeMinKey j) mc
      conv_lhs => rw [evictLoopFuel]
      rw [if_pos ⟨hlen, hne⟩]
      have := removeMinKey_length hne
      congr 1
      omega
    · cases hm : minKey j with
      | none => exact absurd (minKey_eq_none hm) hne
      | some m =>
        refine ⟨m, rfl, minKey_le hm, removeMinKey_length hne, ?_⟩
        intro hnd q hq
        have hle := minKey_le hm q (removeMinKey_subset hq)
        have hne2 : q.1 ≠ m := by
          unfold removeMinKey at hq
          rw [hm] at hq
          exact eraseP_key_ne j hnd q hq (minKey_mem hm)
        omega

/-- C8 witness: the rollout contract evaluated at concrete journals: with
`max_capacity = 1` a two-entry journal rolls out to fewer than one entry,
and the eviction loop on a one-entry journal steps by removing the
minimal key. -/
theorem C8_journal_bounded_witness :
    (∃ j1, rolloutTransactions [(3, ⟨.resolve, 5⟩), (8, ⟨.withdrawal, 2⟩)] 1 1 = some j1 ∧
      j1.length < 1) ∧
    evictLoop [(3, ⟨.withdrawal, 5⟩)] 1 = evictLoop (removeMinKey [(3, ⟨.withdrawal, 5⟩)]) 1 := by
  constructor
  · exact C8_journal_bounded.1 [(3, ⟨.resolve, 5⟩), (8, ⟨.withdrawal, 2⟩)] 1 1 (by decide)
  · exact (C8_journal_bounded.2.2.2 [(3, ⟨.withdrawal, 5⟩)] 1 (by decide) (by decide)).1

/-! ### Decimal parsing (src/transaction/src/num.rs)

Strings are modelled as `List Char`. The `str::len`, `starts_with` and
`&f[..N+1]` operations of the source work on bytes; for the all-ASCII
inputs the claims quantify over (digit strings) byte and character
indexing coincide. Both `Err` returns and panics of the Rust code are
modelled as `none`; the claims only concern accepted (`some`) inputs. -/

/-- The numeric value of an ASCII digit, as computed by `u64::from_str`. -/
def digitVal (c : Char) : Nat := c.toNat - 48

/-- The value of a most-significant-first digit string. -/
def natOfDigits (cs : List Char) : Nat :=
  cs.foldl (fun n c => 10 * n + digitVal c) 0

/-- `str::trim_end_matches('0')`: strip trailing `'0'` characters. -/
def trimZ : List Char → List Char
  | [] => []
  | c :: cs =>
    match trimZ cs with
    | [] => if c = '0' then [] else [c]
    | c1 :: cs1 => c :: c1 :: cs1

/-- `str::split_once('.')`: split at the first `'.'`, if any. -/
def splitOnce : List Char → Option (List Char × List Char)
  | [] => none
  | c :: cs =>
    if c = '.' then some ([], cs)
    else (splitOnce cs).map fun p => (c :: p.1, p.2)

/-- An ASCII digit `'0'..'9'` (code points 48-57), the characters
`u64::from_str` accepts. -/
def isDigitChar (c : Char) : Bool := decide (48 ≤ c.toNat ∧ c.toNat ≤ 57)

/-- `u64::from_str`: an optional leading `'+'`, then one or more ASCII
digits; rejects empty input, other characters, and values above
`u64::MAX`. -/
def parseU64 (cs : List Char) : Option Nat :=
  let ds := match cs with
    | c :: rest => if c = '+' then rest else cs
    | [] => cs
  if ds ≠ [] ∧ ∀ c ∈ ds, isDigitChar c = true then
    if natOfDigits ds ≤ u64Max then some (natOfDigits ds) else none
  else none

/-! #### An exact model of the two `f64` operations the parser performs

`Decimal::new` and `Decimal::from_str` round a fraction with
`(x as f64 / n as f64).round() as u64`. IEEE-754 double precision with
round-to-nearest-ties-to-even gives this a deterministic meaning, modelled
exactly over `ℚ`:
* `flNat x` is `x as f64`: the nearest 53-bit-significand integer,
  ties to even (exact below `2^53`);
* `flQ q` is the correctly rounded double nearest to the exact quotient
  `q`: the significand `q·2^(52 − ⌊log₂ q⌋)` rounded ties-to-even, scaled
  back (our quotients lie well inside the normal range, so neither
  subnormals nor infinities arise);
* `roundF64 q` is `f64::round` (half away from zero, which is half up for
  the nonnegative values arising here) followed by the exact `as u64`
  cast. -/

/-- Round a rational to an integer, ties to even. -/
def roundTiesEven (q : ℚ) : ℤ :=
  if q - ⌊q⌋ < 1/2 then ⌊q⌋
  else if 1/2 < q - ⌊q⌋ then ⌊q⌋ + 1
  else if ⌊q⌋ % 2 = 0 then ⌊q⌋ else ⌊q⌋ + 1

/-- `x as f64` for a `u64` value: round to 53 significant bits, ties to
even. -/
def flNat (x : Nat) : Nat :=
  if x < 2 ^ 53 then x
  else
    let e := x.log2 - 52
    let q := x / 2 ^ e
    let r := x % 2 ^ e
    (if 2 * r < 2 ^ e then q
     else if 2 ^ e < 2 * r then q + 1
     else if q % 2 = 0 then q else q + 1) * 2 ^ e

/-- Correctly round a positive rational to a double (53-bit significand,
ties to even). -/
def flQ (q : ℚ) : ℚ :=
  if q = 0 then 0
  else (roundTiesEven (q * 2 ^ (52 - Int.log 2 q)) : ℚ) / 2 ^ (52 - Int.log 2 q)

/-- `f64::round` (half away from zero) followed by `as u64`, for the
nonnegative doubles arising here. -/
def roundF64 (q : ℚ) : Nat := ⌊q + 1/2⌋₊

/-- `(x as f64 / n as f64).round() as u64`. -/
def f64DivRound (x n : Nat) : Nat :=
  roundF64 (flQ ((flNat x : ℚ) / (flNat n : ℚ)))

/-- `Decimal::<N>::new` (src/transaction/src/num.rs lines 38-53): the
`N = 0` and `frac == FRAC` adjustments, the `f64` rounding of an
over-long fraction with `n = 10^(1 + frac.ilog10() − N)`, then the two
`assert!`s (`uint ≤ MAX_UINT`, `frac ≤ MAX_FRAC`) and the final mantissa
`uint * FRAC + frac`, whose `u64` arithmetic can itself overflow; every
panic is `none`. -/
def decimalNew (N uint frac0 : Nat) : Option Nat :=
  let FRAC := 10 ^ N
  let frac :=
    if N = 0 then 0
    else if frac0 = FRAC then frac0 / 10
    else if frac0 > FRAC then f64DivRound frac0 (10 ^ (1 + Nat.log 10 frac0 - N))
    else frac0
  if uint ≤ u64Max / FRAC ∧ frac ≤ FRAC - 1 then
    if uint * FRAC + frac ≤ u64Max then some (uint * FRAC + frac) else none
  else none

/-- `Decimal::<N>::from_str` (src/transaction/src/num.rs lines 101-118):
split at `'.'`, strip the fraction's trailing zeros, then the four-branch
classification, ending in `Decimal::new`. -/
def decimalFromStr (N : Nat) (s : List Char) : Option Nat :=
  match splitOnce s with
  | none => (parseU64 s).bind fun uint => decimalNew N uint 0
  | some (u, f0) =>
    let f := trimZ f0
    if f = [] then (parseU64 u).bind fun uint => decimalNew N uint 0
    else if f.length < N then
      (parseU64 u).bind fun uint =>
        (parseU64 f).bind fun fv => decimalNew N uint (fv * 10 ^ (N - f.length))
    else if N < f.length ∧ f.head? = some '0' then
      (parseU64 u).bind fun uint =>
        (parseU64 (f.take (N + 1))).bind fun fv => decimalNew N uint (f64DivRound fv 10)
    else
      (parseU64 u).bind fun uint =>
        (parseU64 f).bind fun fv => decimalNew N uint fv

/-- Half-up rounding of the fraction `num / den` as a natural number:
`(2·num + den) / (2·den)`. For nonnegative values this is exactly
half-away-from-zero rounding. -/
def roundHalfNat (num den : Nat) : Nat := (2 * num + den) / (2 * den)

/-- Spec-side definition (for the refinement comparison): the exact
decimal value of the digit string `U.F`, rounded half-away-from-zero to 4
fractional digits, expressed on mantissas:
`round(10^4 · (U + F/10^|F|))` with half-up rounding (equal to
half-away-from-zero on nonnegative values). -/
def specRoundedMantissa (U F : List Char) : Nat :=
  roundHalfNat (10 ^ 4 * natOfDigits (U ++ F)) (10 ^ F.length)

/-! ### Digit-string lemmas -/

theorem digitVal_le {c : Char} (h : isDigitChar c = true) : digitVal c ≤ 9 := by
  simp only [isDigitChar, decide_eq_true_eq] at h
  unfold digitVal
  omega

theorem natOfDigits_foldl_init (cs : List Char) (n : Nat) :
    cs.foldl (fun n c => 10 * n + digitVal c) n = n * 10 ^ cs.length + natOfDigits cs := by
  induction cs generalizing n with
  | nil => simp [natOfDigits]
  | cons c cs ih =>
    simp only [List.foldl_cons, List.length_cons, natOfDigits, Nat.mul_zero, Nat.zero_add]
    rw [ih (10 * n + digitVal c), ih (digitVal c)]
    ring

theorem natOfDigits_cons (c : Char) (cs : List Char) :
    natOfDigits (c :: cs) = digitVal c * 10 ^ cs.length + natOfDigits cs := by
  simp only [natOfDigits, List.foldl_cons]
  rw [show (10 * 0 + digitVal c) = digitVal c by ring]
  exact natOfDigits_foldl_init cs (digitVal c)

theorem natOfDigits_append (xs ys : List Char) :
    natOfDigits (xs ++ ys) = natOfDigits xs * 10 ^ ys.length + natOfDigits ys := by
  simp only [natOfDigits, List.foldl_append]
  exact natOfDigits_foldl_init ys _

theorem natOfDigits_replicate (z : Nat) : natOfDigits (List.replicate z '0') = 0 := by
  induction z with
  | zero => rfl
  | succ n ih =>
    rw [List.replicate_succ, natOfDigits_cons, ih]
    simp [digitVal]

theorem natOfDigits_lt {cs : List Char} (h : ∀ c ∈ cs, isDigitChar c = true) :
    natOfDigits cs < 10 ^ cs.length := by
  induction cs with
  | nil => simp [natOfDigits]
  | cons c cs ih =>
    rw [natOfDigits_cons]
    have h1 := digitVal_le (h c (List.mem_cons_self c cs))
    have h2 := ih fun x hx => h x (List.mem_cons_of_mem c hx)
    have h3 : digitVal c * 10 ^ cs.length ≤ 9 * 10 ^ cs.length :=
      Nat.mul_le_mul_right _ h1
    calc digitVal c * 10 ^ cs.length + natOfDigits cs
        < digitVal c * 10 ^ cs.length + 10 ^ cs.length := by omega
      _ ≤ 9 * 10 ^ cs.length + 10 ^ cs.length := by omega
      _ = 10 ^ (c :: cs).length := by
          simp only [List.length_cons]
          ring

theorem trimZ_decomp (F : List Char) : ∃ z, F = trimZ F ++ List.replicate z '0' := by
  induction F with
  | nil => exact ⟨0, rfl⟩
  | cons c cs ih =>
    obtain ⟨z, hz⟩ := ih
    cases ht : trimZ cs with
    | nil =>
      rw [ht] at hz
      by_cases hc : c = '0'
      · refine ⟨z + 1, ?_⟩
        simp only [trimZ, ht, hc, if_true]
        rw [List.nil_append, List.replicate_succ]
        rw [List.nil_append] at hz
        rw [← hc] at hz ⊢
        rw [← hz]
      · refine ⟨z, ?_⟩
        simp only [trimZ, ht, hc, if_false]
        rw [List.nil_append] at hz
        rw [← hz]
        rfl
    | cons c1 cs1 =>
      refine ⟨z, ?_⟩
      simp only [trimZ, ht]
      rw [ht] at hz
      rw [List.cons_append, ← hz]

theorem splitOnce_append {U : List Char} (h : '.' ∉ U) (F : List Char) :
    splitOnce (U ++ '.' :: F) = some (U, F) := by
  induction U with
  | nil => simp [splitOnce]
  | cons c cs ih =>
    have hc : c ≠ '.' := fun hh => h (hh ▸ List.mem_cons_self c cs)
    simp only [List.cons_append, splitOnce, hc, if_false, List.append_eq]
    rw [ih fun hh => h (List.mem_cons_of_mem c hh)]
    rfl

theorem splitOnce_none {s : List Char} (h : '.' ∉ s) : splitOnce s = none := by
  induction s with
  | nil => rfl
  | cons c cs ih =>
    have hc : c ≠ '.' := fun hh => h (hh ▸ List.mem_cons_self c cs)
    simp only [splitOnce, hc, if_false]
    rw [ih fun hh => h (List.mem_cons_of_mem c hh)]
    rfl

theorem parseU64_digits {cs : List Char} (hd : ∀ c ∈ cs, isDigitChar c = true)
    (hne : cs ≠ []) :
    parseU64 cs = if natOfDigits cs ≤ u64Max then some (natOfDigits cs) else none := by
  cases cs with
  | nil => exact absurd rfl hne
  | cons c rest =>
    have hc : c ≠ '+' := by
      intro hc
      have hcd := hd c (List.mem_cons_self c rest)
      rw [hc] at hcd
      simp [isDigitChar] at hcd
    simp only [parseU64, hc, if_false]
    rw [if_pos ⟨List.cons_ne_nil c rest, hd⟩]

/-! ### Facts about the `f64` model -/

theorem roundTiesEven_intCast (k : ℤ) : roundTiesEven (k : ℚ) = k := by
  simp [roundTiesEven, Int.floor_intCast]

theorem abs_roundTiesEven_sub (q : ℚ) : |(roundTiesEven q : ℚ) - q| ≤ 1/2 := by
  have h1 : (⌊q⌋ : ℚ) ≤ q := Int.floor_le q
  have h2 : q < ⌊q⌋ + 1 := Int.lt_floor_add_one q
  unfold roundTiesEven
  split
  · rename_i h
    rw [abs_le]
    constructor <;> linarith
  · split
    · rename_i h h'
      rw [abs_le]
      push_cast
      constructor <;> linarith
    · split
      · rename_i h h' _
        rw [abs_le]
        constructor <;> linarith
      · rename_i h h' _
        rw [abs_le]
        push_cast
        constructor <;> linarith

theorem intLog_le_of_lt {q : ℚ} (hq : 0 < q) (h : q < 16384) : Int.log 2 q ≤ 13 := by
  by_contra hcon
  push_neg at hcon
  have h14 : (14 : ℤ) ≤ Int.log 2 q := hcon
  have hmono : (2 : ℚ) ^ (14 : ℤ) ≤ (2 : ℚ) ^ Int.log 2 q :=
    zpow_le_zpow_right₀ one_le_two h14
  have hself : ((2 : ℕ) : ℚ) ^ Int.log 2 q ≤ q := Int.zpow_log_le_self (by norm_num) hq
  have : (16384 : ℚ) ≤ q := by
    calc (16384 : ℚ) = (2 : ℚ) ^ (14 : ℤ) := by norm_num
      _ ≤ (2 : ℚ) ^ Int.log 2 q := hmono
      _ ≤ q := by exact_mod_cast hself
  linarith

theorem flQ_exact {q : ℚ} (hq : q ≠ 0) {z : ℤ}
    (hz : q * 2 ^ (52 - Int.log 2 q) = (z : ℚ)) : flQ q = q := by
  rw [flQ, if_neg hq, hz, roundTiesEven_intCast, ← hz]
  rw [mul_div_assoc, div_self (by positivity), mul_one]

theorem flQ_abs_sub {q : ℚ} (hq0 : 0 < q) (hq : q < 16384) :
    |flQ q - q| ≤ 1 / 1099511627776 := by
  have hne : q ≠ 0 := ne_of_gt hq0
  set e := Int.log 2 q with he
  set m : ℤ := 52 - e with hm
  have hm39 : (39 : ℤ) ≤ m := by
    have := intLog_le_of_lt hq0 hq
    omega
  have hpow : (0 : ℚ) < 2 ^ m := by positivity
  have hqq : flQ q - q = ((roundTiesEven (q * 2 ^ m) : ℚ) - q * 2 ^ m) / 2 ^ m := by
    rw [flQ, if_neg hne, ← hm]
    field_simp
    ring
  rw [hqq, abs_div, abs_of_pos hpow]
  have h1 : |(roundTiesEven (q * 2 ^ m) : ℚ) - q * 2 ^ m| ≤ 1/2 :=
    abs_roundTiesEven_sub _
  have h2 : (549755813888 : ℚ) ≤ 2 ^ m := by
    calc (549755813888 : ℚ) = (2 : ℚ) ^ (39 : ℤ) := by norm_num
      _ ≤ 2 ^ m := zpow_le_zpow_right₀ one_le_two hm39
  have h3 : |(roundTiesEven (q * 2 ^ m) : ℚ) - q * 2 ^ m| / 2 ^ m ≤ (1/2) / 549755813888 := by
    apply div_le_div₀ (by norm_num) h1 (by norm_num) h2
  calc |(roundTiesEven (q * 2 ^ m) : ℚ) - q * 2 ^ m| / 2 ^ m
      ≤ (1/2) / 549755813888 := h3
    _ = 1 / 1099511627776 := by norm_num

/-- The single `f64` computation `(d as f64 / 10.0).round() as u64` that
the parser performs on a fraction of at most `N+1 = 5` digits is exact
half-away-from-zero rounding: for `d ≤ 99999` both `d` and the tie
boundaries are exactly representable, so the result is `(d + 5) / 10`. -/
theorem f64DivRound_ten {d : Nat} (hd : d ≤ 99999) : f64DivRound d 10 = (d + 5) / 10 := by
  have h10 : flNat 10 = 10 := by norm_num [flNat]
  rcases Nat.eq_zero_or_pos d with h0 | hpos
  · subst h0
    have h00 : flNat 0 = 0 := by norm_num [flNat]
    rw [f64DivRound, h00, h10]
    norm_num [flQ, roundF64]
  · have hlt : d < 2 ^ 53 := Nat.lt_of_le_of_lt hd (by norm_num)
    have hfd : flNat d = d := by
      simp only [flNat]
      rw [if_pos hlt]
    rw [f64DivRound, hfd, h10]
    have hc10 : ((10 : ℕ) : ℚ) = 10 := by norm_num
    rw [hc10]
    set q : ℚ := (d : ℚ) / 10 with hqdef
    have hqpos : 0 < q := div_pos (by exact_mod_cast hpos) (by norm_num)
    have hqlt : q < 16384 := by
      rw [hqdef, div_lt_iff₀ (by norm_num)]
      have : (d : ℚ) ≤ 99999 := by exact_mod_cast hd
      linarith
    have harg : q + 1/2 = ((2*d + 10 : ℕ) : ℚ) / ((20 : ℕ) : ℚ) := by
      rw [hqdef]
      push_cast
      ring
    have hfinal : ⌊q + 1/2⌋₊ = (d + 5) / 10 := by
      rw [harg, Nat.floor_div_nat, Nat.floor_natCast]
      omega
    rcases Nat.eq_zero_or_pos (d % 5) with hmod | hmod
    · -- d is a multiple of 5: the quotient (and any tie) is exactly representable
      obtain ⟨k, hk⟩ := Nat.dvd_of_mod_eq_zero hmod
      set m : ℤ := 52 - Int.log 2 q with hmdef
      have hm1 : (0 : ℤ) ≤ m - 1 := by
        have := intLog_le_of_lt hqpos hqlt
        omega
      have hz : q * 2 ^ m = (((k : ℤ) * 2 ^ (m - 1).toNat : ℤ) : ℚ) := by
        have hdk : (d : ℚ) = 5 * (k : ℚ) := by exact_mod_cast hk
        have hsplit : (2 : ℚ) ^ m = (2 : ℚ) ^ (m - 1) * 2 := by
          rw [← zpow_add_one₀ (by norm_num : (2:ℚ) ≠ 0)]
          ring_nf
        have htn : ((2 : ℚ) ^ ((m - 1).toNat : ℕ)) = (2 : ℚ) ^ (m - 1) := by
          rw [← zpow_natCast (2:ℚ) (m - 1).toNat, Int.toNat_of_nonneg hm1]
        push_cast
        rw [hqdef, hdk, hsplit, htn]
        ring
      rw [flQ_exact (ne_of_gt hqpos) hz, roundF64]
      exact hfinal
    · -- d is not a multiple of 5: the quotient is at least 1/10 away from a
      -- tie, far beyond the rounding error of the division
      have hflq := abs_le.mp (flQ_abs_sub hqpos hqlt)
      set a := d / 10 with hadef
      set b := d % 10 with hbdef
      have hd10 : d = 10 * a + b := by omega
      have hb9 : b ≤ 9 := by omega
      have hb05 : b ≠ 0 ∧ b ≠ 5 := by omega
      have hq_eq : q = (a : ℚ) + (b : ℚ) / 10 := by
        rw [hqdef, hd10]
        push_cast
        ring
      have hbq9 : (b : ℚ) ≤ 9 := by exact_mod_cast hb9
      have hbq1 : (1 : ℚ) ≤ (b : ℚ) := by
        have : 1 ≤ b := by omega
        exact_mod_cast this
      rw [roundF64]
      by_cases hb : b ≤ 4
      · have hgoal : (d + 5) / 10 = a := by omega
        have hbq4 : (b : ℚ) ≤ 4 := by exact_mod_cast hb
        rw [hgoal, Nat.floor_eq_iff (by linarith)]
        constructor
        · linarith
        · linarith
      · have hb6 : 6 ≤ b := by omega
        have hbq6 : (6 : ℚ) ≤ (b : ℚ) := by exact_mod_cast hb6
        have hgoal : (d + 5) / 10 = a + 1 := by omega
        rw [hgoal, Nat.floor_eq_iff (by linarith)]
        constructor
        · push_cast
          linarith
        · push_cast
          linarith

theorem decimalNew_small {u fr v : Nat} (hfr : fr < 10 ^ 4)
    (h : decimalNew 4 u fr = some v) : v = u * 10 ^ 4 + fr := by
  simp only [decimalNew] at h
  rw [if_neg (by decide : ¬ (4 = 0)), if_neg (by omega : ¬ fr = 10 ^ 4),
    if_neg (by omega : ¬ fr > 10 ^ 4)] at h
  split at h
  · split at h
    · exact (Option.some_inj.mp h).symm
    · exact absurd h (by simp)
  · exact absurd h (by simp)

theorem decimalNew_five {u fr v : Nat} (h4 : 10 ^ 4 ≤ fr) (h5 : fr ≤ 99999)
    (h : decimalNew 4 u fr = some v) : v = u * 10 ^ 4 + (fr + 5) / 10 := by
  simp only [decimalNew] at h
  rw [if_neg (by decide : ¬ (4 = 0))] at h
  rcases Nat.eq_or_lt_of_le h4 with heq | hgt
  · rw [if_pos heq.symm] at h
    split at h
    · split at h
      · rw [← (Option.some_inj.mp h)]
        omega
      · exact absurd h (by simp)
    · exact absurd h (by simp)
  · have hlog : Nat.log 10 fr = 4 :=
      Nat.log_eq_of_pow_le_of_lt_pow h4 (by omega)
    rw [if_neg (by omega : ¬ fr = 10 ^ 4), if_pos hgt, hlog] at h
    rw [show (1 + 4 - 4 : Nat) = 1 by norm_num, pow_one] at h
    rw [f64DivRound_ten h5] at h
    split at h
    · split at h
      · exact (Option.some_inj.mp h).symm
      · exact absurd h (by simp)
    · exact absurd h (by simp)

/-! ### Arithmetic of exact half-up rounding -/

theorem roundHalfNat_mul_exact {a d : Nat} (hd : 0 < d) : roundHalfNat (a * d) d = a := by
  unfold roundHalfNat
  rw [show 2 * (a * d) + d = d + 2 * d * a by ring, Nat.add_mul_div_left _ _ (by omega),
    Nat.div_eq_of_lt (by omega)]
  omega

theorem roundHalfNat_cancel (A B z : Nat) (hz : 0 < z) :
    roundHalfNat (A * z) (B * z) = roundHalfNat A B := by
  unfold roundHalfNat
  rw [show 2 * (A * z) + B * z = (2 * A + B) * z by ring,
    show 2 * (B * z) = (2 * B) * z by ring,
    Nat.mul_div_mul_right _ _ hz]

theorem roundHalfNat_add_mul (C R B : Nat) (hB : 0 < B) :
    roundHalfNat (C * B + R) B = C + roundHalfNat R B := by
  unfold roundHalfNat
  rw [show 2 * (C * B + R) + B = (2 * R + B) + (2 * B) * C by ring,
    Nat.add_mul_div_left _ _ (by omega)]
  omega

theorem digit_truncation_div {A r t : Nat} (hr : r < 10 ^ t) :
    (A * 10 ^ t + r) / 10 ^ (t + 1) = A / 10 := by
  have hmod : A % 10 ≤ 9 := by omega
  have h1 : A * 10 ^ t + r = (A / 10) * 10 ^ (t + 1) + ((A % 10) * 10 ^ t + r) := by
    have hA := Nat.div_add_mod A 10
    calc A * 10 ^ t + r = (10 * (A / 10) + A % 10) * 10 ^ t + r := by rw [hA]
      _ = (A / 10) * (10 ^ t * 10) + ((A % 10) * 10 ^ t + r) := by ring
      _ = (A / 10) * 10 ^ (t + 1) + ((A % 10) * 10 ^ t + r) := by rw [pow_succ]
  have h2 : (A % 10) * 10 ^ t + r < 10 ^ (t + 1) := by
    have : (A % 10) * 10 ^ t ≤ 9 * 10 ^ t := Nat.mul_le_mul_right _ hmod
    have hps : 10 ^ (t + 1) = 10 ^ t * 10 := pow_succ 10 t
    omega
  rw [h1, show (A / 10) * 10 ^ (t + 1) + ((A % 10) * 10 ^ t + r) =
    ((A % 10) * 10 ^ t + r) + 10 ^ (t + 1) * (A / 10) by ring,
    Nat.add_mul_div_left _ _ (by positivity), Nat.div_eq_of_lt h2]
  omega

theorem specRounded_strip (U F : List Char) :
    specRoundedMantissa U F =
      roundHalfNat (10 ^ 4 * (natOfDigits U * 10 ^ (trimZ F).length + natOfDigits (trimZ F)))
        (10 ^ (trimZ F).length) := by
  obtain ⟨z, hz⟩ := trimZ_decomp F
  unfold specRoundedMantissa
  have hlen : F.length = (trimZ F).length + z := by
    conv_lhs => rw [hz]
    simp [List.length_append]
  have hval : natOfDigits F = natOfDigits (trimZ F) * 10 ^ z := by
    conv_lhs => rw [hz]
    rw [natOfDigits_append, natOfDigits_replicate, List.length_replicate]
    omega
  rw [natOfDigits_append, hval, hlen]
  rw [show 10 ^ 4 * (natOfDigits U * 10 ^ ((trimZ F).length + z) +
        natOfDigits (trimZ F) * 10 ^ z) =
      (10 ^ 4 * (natOfDigits U * 10 ^ (trimZ F).length + natOfDigits (trimZ F))) * 10 ^ z by
    rw [pow_add]
    ring]
  rw [show (10 : Nat) ^ ((trimZ F).length + z) = 10 ^ (trimZ F).length * 10 ^ z from pow_add 10 _ _]
  exact roundHalfNat_cancel _ _ _ (by positivity)

theorem spec_small_reduce {T : List Char} (nU : Nat) (hlen : T.length ≤ 4) :
    roundHalfNat (10 ^ 4 * (nU * 10 ^ T.length + natOfDigits T)) (10 ^ T.length) =
      nU * 10 ^ 4 + natOfDigits T * 10 ^ (4 - T.length) := by
  rw [show 10 ^ 4 * (nU * 10 ^ T.length + natOfDigits T) =
      (nU * 10 ^ 4 + natOfDigits T * 10 ^ (4 - T.length)) * 10 ^ T.length by
    rw [show (4 : Nat) = (4 - T.length) + T.length by omega, pow_add]
    ring_nf
    rw [show (4 - T.length) + T.length = 4 by omega]
    ring]
  exact roundHalfNat_mul_exact (by positivity)

theorem spec_five_reduce {T : List Char} (nU : Nat)
    (hdig : ∀ c ∈ T, isDigitChar c = true) (hlen : 5 ≤ T.length) :
    roundHalfNat (10 ^ 4 * (nU * 10 ^ T.length + natOfDigits T)) (10 ^ T.length) =
      nU * 10 ^ 4 + (natOfDigits (T.take 5) + 5) / 10 := by
  set t := T.length - 5 with ht
  have hlt : T.length = 5 + t := by omega
  have hTsplit : natOfDigits T = natOfDigits (T.take 5) * 10 ^ t + natOfDigits (T.drop 5) := by
    conv_lhs => rw [← List.take_append_drop 5 T]
    rw [natOfDigits_append, List.length_drop, ← ht]
  have hr : natOfDigits (T.drop 5) < 10 ^ t := by
    have := @natOfDigits_lt (T.drop 5) fun c hc => hdig c (List.mem_of_mem_drop hc)
    rwa [List.length_drop, ← ht] at this
  rw [show 10 ^ 4 * (nU * 10 ^ T.length + natOfDigits T) =
      (nU * 10 ^ 4) * 10 ^ T.length + 10 ^ 4 * natOfDigits T by ring]
  rw [roundHalfNat_add_mul _ _ _ (by positivity)]
  congr 1
  rw [hlt, show 10 ^ 4 * natOfDigits T = natOfDigits T * 10 ^ 4 by ring,
    show (10 : Nat) ^ (5 + t) = 10 ^ (t + 1) * 10 ^ 4 by
      rw [← pow_add]
      congr 1
      omega]
  rw [roundHalfNat_cancel _ _ _ (by positivity)]
  unfold roundHalfNat
  rw [show 2 * natOfDigits T + 10 ^ (t + 1) = 2 * (natOfDigits T + 5 * 10 ^ t) by
      rw [pow_succ]
      ring,
    Nat.mul_div_mul_left _ _ (by omega)]
  rw [hTsplit, show natOfDigits (T.take 5) * 10 ^ t + natOfDigits (T.drop 5) + 5 * 10 ^ t =
      (natOfDigits (T.take 5) + 5) * 10 ^ t + natOfDigits (T.drop 5) by ring]
  exact digit_truncation_div hr

theorem bind_parse_extract {cs : List Char} {g : Nat → Option Nat} {v : Nat}
    (hd : ∀ c ∈ cs, isDigitChar c = true) (hne : cs ≠ [])
    (h : (parseU64 cs).bind g = some v) :
    natOfDigits cs ≤ u64Max ∧ g (natOfDigits cs) = some v := by
  rw [parseU64_digits hd hne] at h
  split at h
  · exact ⟨by assumption, by simpa using h⟩
  · simp at h

theorem parse_boundary_low : decimalFromStr 4 ("1.00024999".toList) = some 10002 := by
  rw [show ("1.00024999".toList) = "1".toList ++ '.' :: "00024999".toList from by decide]
  simp only [decimalFromStr, splitOnce_append (by decide : '.' ∉ "1".toList)]
  rw [show trimZ ("00024999".toList) = "00024999".toList from by decide]
  rw [if_neg (by decide), if_neg (by decide), if_pos (by decide)]
  rw [show parseU64 ("1".toList) = some 1 from by decide]
  simp only [Option.some_bind]
  rw [show ("00024999".toList).take (4 + 1) = "00024".toList from by decide]
  rw [show parseU64 ("00024".toList) = some 24 from by decide]
  simp only [Option.some_bind]
  rw [show f64DivRound 24 10 = 2 from (f64DivRound_ten (by norm_num)).trans (by norm_num)]
  decide

theorem parse_boundary_high : decimalFromStr 4 ("1.00025001".toList) = some 10003 := by
  rw [show ("1.00025001".toList) = "1".toList ++ '.' :: "00025001".toList from by decide]
  simp only [decimalFromStr, splitOnce_append (by decide : '.' ∉ "1".toList)]
  rw [show trimZ ("00025001".toList) = "00025001".toList from by decide]
  rw [if_neg (by decide), if_neg (by decide), if_pos (by decide)]
  rw [show parseU64 ("1".toList) = some 1 from by decide]
  simp only [Option.some_bind]
  rw [show ("00025001".toList).take (4 + 1) = "00025".toList from by decide]
  rw [show parseU64 ("00025".toList) = some 25 from by decide]
  simp only [Option.some_bind]
  rw [show f64DivRound 25 10 = 3 from (f64DivRound_ten (by norm_num)).trans (by norm_num)]
  decide

/-- C9 (amended): the two boundary parses of the claim hold
(`"1.00024999"` parses to `1.0002` and `"1.00025001"` to `1.0003`), and
for every accepted input of the forms `U`, `U.`, `U.F` whose fractional
part, after stripping trailing zeros, has at most `N + 1 = 5` digits or
starts with `'0'`, the parsed mantissa equals the exact decimal value of
the string rounded half-away-from-zero to 4 fractional digits. (The fully
general statement fails: with at least `N + 2` significant fractional
digits not starting with `'0'`, the `f64` double rounding can differ —
see the counterexample.) -/
theorem C9_parse_rounds_half_away :
    (∀ (U : List Char) (v : Nat), (∀ c ∈ U, isDigitChar c = true) →
      decimalFromStr 4 U = some v → v = specRoundedMantissa U []) ∧
    (∀ (U F : List Char) (v : Nat), (∀ c ∈ U, isDigitChar c = true) →
      (∀ c ∈ F, isDigitChar c = true) →
      ((trimZ F).length ≤ 5 ∨ (trimZ F).head? = some '0') →
      decimalFromStr 4 (U ++ '.' :: F) = some v →
      v = specRoundedMantissa U F) ∧
    decimalFromStr 4 ("1.00024999".toList) = some 10002 ∧
    decimalFromStr 4 ("1.00025001".toList) = some 10003 := by
  refine ⟨?_, ?_, parse_boundary_low, parse_boundary_high⟩
  · intro U v hU h
    have hdot : '.' ∉ U := fun hm => by simpa [isDigitChar] using hU '.' hm
    simp only [decimalFromStr, splitOnce_none hdot] at h
    have hUne : U ≠ [] := by
      intro h0
      rw [h0] at h
      simp [parseU64] at h
    obtain ⟨hUb, h⟩ := bind_parse_extract hU hUne h
    have hv := decimalNew_small (by norm_num) h
    rw [specRounded_strip, show trimZ ([] : List Char) = [] from rfl,
      spec_small_reduce _ (by simp)]
    rw [show natOfDigits ([] : List Char) = 0 from rfl]
    simpa using hv
  · intro U F v hU hF hcond h
    have hdot : '.' ∉ U := fun hm => by simpa [isDigitChar] using hU '.' hm
    simp only [decimalFromStr, splitOnce_append hdot] at h
    have hTd : ∀ c ∈ trimZ F, isDigitChar c = true := by
      intro c hc
      obtain ⟨z, hz⟩ := trimZ_decomp F
      refine hF c ?_
      rw [hz]
      exact List.mem_append_left _ hc
    rw [specRounded_strip]
    by_cases h1 : trimZ F = []
    · rw [if_pos h1] at h
      have hUne : U ≠ [] := by
        intro h0
        rw [h0] at h
        simp [parseU64] at h
      obtain ⟨hUb, h⟩ := bind_parse_extract hU hUne h
      have hv := decimalNew_small (by norm_num) h
      rw [h1, spec_small_reduce _ (by simp)]
      rw [show natOfDigits ([] : List Char) = 0 from rfl]
      simpa using hv
    · rw [if_neg h1] at h
      by_cases h2 : (trimZ F).length < 4
      · rw [if_pos h2] at h
        have hUne : U ≠ [] := by
          intro h0
          rw [h0] at h
          simp [parseU64] at h
        obtain ⟨hUb, h⟩ := bind_parse_extract hU hUne h
        obtain ⟨hTb, h⟩ := bind_parse_extract hTd h1 h
        have hfr : natOfDigits (trimZ F) * 10 ^ (4 - (trimZ F).length) < 10 ^ 4 := by
          have hlt := natOfDigits_lt hTd
          calc natOfDigits (trimZ F) * 10 ^ (4 - (trimZ F).length)
              < 10 ^ (trimZ F).length * 10 ^ (4 - (trimZ F).length) :=
                mul_lt_mul_of_pos_right hlt (by positivity)
            _ = 10 ^ 4 := by
                rw [← pow_add]
                congr 1
                omega
        have hv := decimalNew_small hfr h
        rw [spec_small_reduce _ (by omega)]
        omega
      · rw [if_neg h2] at h
        by_cases h3 : 4 < (trimZ F).length ∧ (trimZ F).head? = some '0'
        · rw [if_pos h3] at h
          have hUne : U ≠ [] := by
            intro h0
            rw [h0] at h
            simp [parseU64] at h
          obtain ⟨hUb, h⟩ := bind_parse_extract hU hUne h
          have htake_d : ∀ c ∈ (trimZ F).take (4+1), isDigitChar c = true :=
            fun c hc => hTd c (List.mem_of_mem_take hc)
          have htake_ne : (trimZ F).take (4+1) ≠ [] := by
            intro h0
            rw [List.take_eq_nil_iff] at h0
            rcases h0 with h0 | h0
            · exact absurd h0 (by omega)
            · exact h1 h0
          obtain ⟨hTb, h⟩ := bind_parse_extract htake_d htake_ne h
          obtain ⟨c, T1, hcons⟩ : ∃ c T1, trimZ F = c :: T1 := by
            cases hTF : trimZ F with
            | nil => exact absurd hTF h1
            | cons c T1 => exact ⟨c, T1, rfl⟩
          have hc0 : c = '0' := by
            have hh := h3.2
            rw [hcons] at hh
            simpa using hh
          have hdd : natOfDigits ((trimZ F).take (4+1)) ≤ 9999 := by
            rw [hcons, hc0, List.take_succ_cons, natOfDigits_cons,
              show digitVal '0' = 0 from rfl]
            have h9 := @natOfDigits_lt (T1.take 4) fun x hx =>
              hTd x (hcons ▸ List.mem_cons_of_mem c (List.mem_of_mem_take hx))
            have hlen4 : (T1.take 4).length ≤ 4 := by
              simp [List.length_take]
            have hlt4 : natOfDigits (T1.take 4) < 10 ^ 4 :=
              lt_of_lt_of_le h9 (pow_le_pow_right₀ (by norm_num) hlen4)
            omega
          have hfr : f64DivRound (natOfDigits ((trimZ F).take (4+1))) 10 < 10 ^ 4 := by
            rw [f64DivRound_ten (by omega)]
            omega
          have hv := decimalNew_small hfr h
          rw [f64DivRound_ten (by omega)] at hv
          rw [spec_five_reduce _ hTd (by omega)]
          rw [show (4:Nat) + 1 = 5 from rfl] at hv
          omega
        · rw [if_neg h3] at h
          have hUne : U ≠ [] := by
            intro h0
            rw [h0] at h
            simp [parseU64] at h
          obtain ⟨hUb, h⟩ := bind_parse_extract hU hUne h
          obtain ⟨hTb, h⟩ := bind_parse_extract hTd h1 h
          have hlen4 : 4 ≤ (trimZ F).length := by omega
          rcases Nat.eq_or_lt_of_le hlen4 with hlen | hlen
          · have hfr : natOfDigits (trimZ F) < 10 ^ 4 := by
              have := natOfDigits_lt hTd
              rwa [← hlen] at this
            have hv := decimalNew_small hfr h
            rw [spec_small_reduce _ (by omega), ← hlen]
            simp only [Nat.sub_self, pow_zero, Nat.mul_one]
            omega
          · have hh0 : ¬ (trimZ F).head? = some '0' := by
              intro hh
              exact h3 ⟨by omega, hh⟩
            have hlen5 : (trimZ F).length = 5 := by
              rcases hcond with hc | hc
              · omega
              · exact absurd hc hh0
            obtain ⟨c, T1, hcons⟩ : ∃ c T1, trimZ F = c :: T1 := by
              cases hTF : trimZ F with
              | nil => exact absurd hTF h1
              | cons c T1 => exact ⟨c, T1, rfl⟩
            have hc0 : c ≠ '0' := by
              intro hcc
              refine hh0 ?_
              rw [hcons, hcc]
              rfl
            have hcd := hTd c (hcons ▸ List.mem_cons_self c T1)
            have hdv : 1 ≤ digitVal c := by
              simp only [isDigitChar, decide_eq_true_eq] at hcd
              have h48 : c.toNat ≠ 48 := by
                intro h48
                refine hc0 ?_
                have hofn := Char.ofNat_toNat c
                rw [h48] at hofn
                rw [← hofn]
              unfold digitVal
              omega
            have hT1len : T1.length = 4 := by
              have := hlen5
              rw [hcons] at this
              simpa using this
            have hnT4 : 10 ^ 4 ≤ natOfDigits (trimZ F) := by
              rw [hcons, natOfDigits_cons, hT1len]
              calc (10:Nat) ^ 4 = 1 * 10 ^ 4 := by ring
                _ ≤ digitVal c * 10 ^ 4 := Nat.mul_le_mul_right _ hdv
                _ ≤ digitVal c * 10 ^ 4 + natOfDigits T1 := Nat.le_add_right _ _
            have hnT9 : natOfDigits (trimZ F) ≤ 99999 := by
              have := natOfDigits_lt hTd
              rw [hlen5] at this
              omega
            have hv := decimalNew_five hnT4 hnT9 h
            rw [spec_five_reduce _ hTd (by omega)]
            rw [show (trimZ F).take 5 = trimZ F by
              rw [show (5:Nat) = (trimZ F).length from hlen5.symm, List.take_length]]
            omega

theorem f64DivRound_19digit : f64DivRound 1000499999999999999 1000000000000000 = 1001 := by
  have hflN : flNat 1000499999999999999 = 1000500000000000000 := by
    have hlog : Nat.log2 1000499999999999999 = 59 := by
      rw [Nat.log2_eq_log_two]
      exact Nat.log_eq_of_pow_le_of_lt_pow (by norm_num) (by norm_num)
    simp only [flNat]
    rw [if_neg (by norm_num), hlog]
    norm_num
  have hfl10 : flNat 1000000000000000 = 1000000000000000 := by
    simp only [flNat]
    rw [if_pos (by norm_num)]
  rw [f64DivRound, hflN, hfl10]
  have hq : ((1000500000000000000 : ℕ) : ℚ) / ((1000000000000000 : ℕ) : ℚ) = 2001/2 := by
    norm_num
  rw [hq]
  have hlogq : Int.log 2 ((2001 : ℚ)/2) = 9 := by
    have hle : (9:ℤ) ≤ Int.log 2 ((2001:ℚ)/2) := by
      rw [← Int.zpow_le_iff_le_log (by norm_num) (by norm_num)]
      norm_num
    have hlt : Int.log 2 ((2001:ℚ)/2) < 10 := by
      rw [← Int.lt_zpow_iff_log_lt (by norm_num) (by norm_num)]
      norm_num
    omega
  have hz : (2001:ℚ)/2 * 2 ^ (52 - Int.log 2 ((2001:ℚ)/2)) = ((2001 * 2^42 : ℤ) : ℚ) := by
    rw [hlogq, show (52 - 9 : ℤ) = ((43:ℕ) : ℤ) from rfl, zpow_natCast]
    push_cast
    ring
  rw [flQ_exact (by norm_num) hz, roundF64]
  norm_num

theorem decimalNew_19digit : decimalNew 4 0 1000499999999999999 = some 1001 := by
  have hfr : (if (4:Nat) = 0 then 0
      else if 1000499999999999999 = 10 ^ 4 then 1000499999999999999 / 10
      else if 1000499999999999999 > 10 ^ 4 then
        f64DivRound 1000499999999999999 (10 ^ (1 + Nat.log 10 1000499999999999999 - 4))
      else 1000499999999999999) = 1001 := by
    rw [if_neg (by decide), if_neg (by norm_num), if_pos (by norm_num)]
    rw [show Nat.log 10 1000499999999999999 = 18 from
      Nat.log_eq_of_pow_le_of_lt_pow (by norm_num) (by norm_num)]
    rw [show (10:Nat) ^ (1 + 18 - 4) = 1000000000000000 from by norm_num]
    exact f64DivRound_19digit
  simp only [decimalNew]
  rw [hfr]
  norm_num [u64Max]

theorem decimalFromStr_last_branch (N : Nat) (U F : List Char) (u fv : Nat) (hdot : '.' ∉ U)
    (ht : trimZ F = F) (h1 : ¬ F = []) (h2 : ¬ F.length < N)
    (h3 : ¬ (N < F.length ∧ F.head? = some '0'))
    (hu : parseU64 U = some u) (hf : parseU64 F = some fv) :
    decimalFromStr N (U ++ '.' :: F) = decimalNew N u fv := by
  simp only [decimalFromStr, splitOnce_append hdot]
  rw [ht, if_neg h1, if_neg h2, if_neg h3, hu, Option.some_bind, hf, Option.some_bind]

/-- C9 counterexample: for the accepted input `"0.1000499999999999999"`
(19 significant fractional digits, not starting with `'0'`) the parser
returns mantissa 1001 (value 0.1001): the `f64` conversion of the 19-digit
fraction rounds it up to a tie, which then rounds away from zero. The
exact decimal value rounded half-away-from-zero to 4 fractional digits is
0.1000 (mantissa 1000), so the claim's general statement is false. -/
theorem C9_counterexample :
    decimalFromStr 4 ("0.1000499999999999999".toList) = some 1001 ∧
    specRoundedMantissa ("0".toList) ("1000499999999999999".toList) = 1000 ∧
    (1001 : Nat) ≠ 1000 := by
  refine ⟨?_, by decide, by decide⟩
  rw [show ("0.1000499999999999999".toList) =
    "0".toList ++ '.' :: "1000499999999999999".toList from by decide]
  rw [decimalFromStr_last_branch 4 _ _ 0 1000499999999999999 (by decide) (by decide)
    (by decide) (by decide) (by decide) (by decide) (by decide)]
  exact decimalNew_19digit

/-- C9 witness: the amended rounding statement applied at the concrete
accepted input `"3.14"`. -/
theorem C9_parse_rounds_half_away_witness :
    decimalFromStr 4 ("3".toList ++ '.' :: "14".toList) = some 31400 ∧
    31400 = specRoundedMantissa ("3".toList) ("14".toList) := by
  refine ⟨by decide, ?_⟩
  exact C9_parse_rounds_half_away.2.1 ("3".toList) ("14".toList) 31400
    (by decide) (by decide) (by decide) (by decide)
